import Mathlib

/-!
Verification of the 1brc aggregation engine (src/main.rs).

The program is shallowly embedded over byte buffers modelled as `List Nat`
(each element one byte, `10` = newline, `59` = semicolon, `46` = dot,
`45` = minus, `48`..`57` = digits).  Machine integers: the parsed value is
an `i16` in the source; for arbitrary input bytes the computed magnitude is
at most 28305 < 2^15, so plain `Int` arithmetic is exact and no wrap-around
modelling is needed.  The `i64` sum and `usize` count are modelled as
`Int`/`Nat`; overflow of the running sum is declared out of scope by the
specification.  Fallible/unreachable paths of the source (debug `unwrap`,
`unreachable!`) are modelled with `Option`.
-/

/-- First index of byte `t` in a list, as `Iterator::position`. -/
def findPos (t : Nat) : List Nat → Option Nat
  | [] => none
  | b :: l => if b = t then some 0 else (findPos t l).map (· + 1)

/-- Split a buffer at newline bytes.  A trailing newline yields a trailing
empty piece, mirroring the fact that the byte after it starts a (empty)
new line. -/
def splitNL : List Nat → List (List Nat)
  | [] => [[]]
  | b :: l =>
    if b = 10 then [] :: splitNL l
    else
      match splitNL l with
      | [] => [[b]]
      | h :: t => (b :: h) :: t

/-- Inverse of `splitNL`: join pieces with newline separators. -/
def joinNL : List (List Nat) → List Nat
  | [] => []
  | [p] => p
  | p :: ps => p ++ 10 :: joinNL ps

/-- The per-station aggregation record from src/main.rs (`count: usize`,
`sum: i64`, `min: i16`, `max: i16`). -/
structure MeasurementRecord where
  count : Nat
  sum : Int
  min : Int
  max : Int
  deriving Repr, DecidableEq

/-- Record for the first occurrence of a key (`or_insert_with` branch of
`handle_entry`). -/
def initRecord (v : Int) : MeasurementRecord :=
  { count := 1, sum := v, min := v, max := v }

/-- The `and_modify` branch of `handle_entry`: `count += 1; sum += value;
min = min.min(value); max = max.max(value)`. -/
def addValue (r : MeasurementRecord) (v : Int) : MeasurementRecord :=
  { count := r.count + 1, sum := r.sum + v, min := min r.min v, max := max r.max v }

/-- The merge combination from `main`: `count += data.count; sum += data.sum;
max = max.max(data.max); min = min.min(data.min)`. -/
def combine (a b : MeasurementRecord) : MeasurementRecord :=
  { count := a.count + b.count, sum := a.sum + b.sum,
    min := min a.min b.min, max := max a.max b.max }

/-- Byte decoding `b.wrapping_sub(b'0') as i16` from the parser: u8 wrapping
subtraction of 48, then zero-extension into the value type. -/
def wsub (b : Nat) : Int := ((b + 208) % 256 : Nat)

/-- The `match before_dot.len()` value decoder of `process_chunk`
(src/main.rs lines 172-200).  `ip` is the slice between `;` and `.`,
`d` the byte after the `.`.  The 1- and 2-byte branches are as written in
the source; the 3-byte branch ignores the first byte and negates; any other
length is the `unreachable!` arm, modelled as `none`. -/
def decodeValue (ip : List Nat) (d : Nat) : Option Int :=
  match ip with
  | [a] => some (wsub a * 10 + wsub d)
  | [a, b] =>
    some (if a = 45 then -(wsub b) * 10 - wsub d
          else wsub a * 100 + wsub b * 10 + wsub d)
  | [_, b, c] => some (-(wsub b * 100 + wsub c * 10 + wsub d))
  | _ => none

/-- One entry produced by the parser: borrowed key bytes and decoded value. -/
abbrev Entry := List Nat × Int

/-- Fuelled version of the record-scanning loop of `process_chunk`
(src/main.rs lines 139-208).  Each iteration: find the first `;`
(`none` models the debug `unwrap` panic / release UB), split off the key,
find the first `.`, read the byte after it, decode the value, then advance
by `dot + 3` bytes, stopping when `data.get(dot + 3..)` is out of range.
Each iteration consumes at least one byte, so fuel `data.length` suffices. -/
def parseEntriesF (fuel : Nat) (data : List Nat) : Option (List Entry) :=
  if data = [] then some []
  else
    match fuel with
    | 0 => none
    | fuel + 1 =>
      (findPos 59 data).bind fun i =>
        (findPos 46 (data.drop (i + 1))).bind fun j =>
          ((data.drop (i + 1))[j+1]?).bind fun d =>
            (decodeValue ((data.drop (i + 1)).take j) d).bind fun v =>
              if j + 3 ≤ (data.drop (i + 1)).length then
                (parseEntriesF fuel ((data.drop (i + 1)).drop (j + 3))).map
                  (fun es => (data.take i, v) :: es)
              else some [(data.take i, v)]

/-- The record-scanning loop of `process_chunk` on a slice. -/
def parseEntries (data : List Nat) : Option (List Entry) :=
  parseEntriesF data.length data

/-- Parse of a single line (one loop iteration of `process_chunk` consuming
exactly the given bytes): the first `;` splits off the key, the first `.`
of the remainder must sit exactly two bytes before the end, and the value
is decoded from the bytes in between. -/
def parsePiece (p : List Nat) : Option Entry :=
  (findPos 59 p).bind fun i =>
    (findPos 46 (p.drop (i + 1))).bind fun j =>
      if (p.drop (i + 1)).length = j + 2 then
        ((p.drop (i + 1))[j+1]?).bind fun d =>
          (decodeValue ((p.drop (i + 1)).take j) d).map fun v => (p.take i, v)
      else none

/-- A piece is well formed when one loop iteration of the parser consumes it
exactly. -/
def goodB (p : List Nat) : Bool := (parsePiece p).isSome

/-- All pieces of a slice are well-formed lines, except that the final piece
may be empty (the case of a slice ending in a newline). -/
def okPiecesB : List (List Nat) → Bool
  | [] => true
  | [p] => goodB p || p.isEmpty
  | p :: ps => goodB p && okPiecesB ps

/-- Aggregation map, modelled as an association list with unique keys
(hashbrown `HashMap<&[u8], MeasurementRecord>` up to iteration order; the
program sorts before output, so iteration order is irrelevant). -/
abbrev AggMap := List (List Nat × MeasurementRecord)

/-- Content-based lookup. -/
def lookupRec : AggMap → List Nat → Option MeasurementRecord
  | [], _ => none
  | (k', r) :: m, k => if k' = k then some r else lookupRec m k

/-- The `handle_entry` closure of `process_chunk`: in-place modify on a hit,
insert `initRecord` on a miss. -/
def updateMap : AggMap → List Nat → Int → AggMap
  | [], k, v => [(k, initRecord v)]
  | (k', r) :: m, k, v =>
    if k' = k then (k', addValue r v) :: m
    else (k', r) :: updateMap m k v

/-- Process a list of parsed entries into a map (the parser calls
`handle_entry` once per record, in order). -/
def processEntries (m : AggMap) (es : List Entry) : AggMap :=
  es.foldl (fun m e => updateMap m e.1 e.2) m

/-- The merge step of `main` for one `(station, data)` pair of a worker's
partial map: `map.entry(station).and_modify(combine).or_insert(data)`. -/
def mergeEntry : AggMap → List Nat → MeasurementRecord → AggMap
  | [], k, r => [(k, r)]
  | (k', r') :: m, k, r =>
    if k' = k then (k', combine r' r) :: m
    else (k', r') :: mergeEntry m k r

/-- Merge a worker's partial map `b` into the accumulated map `a`. -/
def mergeMaps (a b : AggMap) : AggMap :=
  b.foldl (fun m e => mergeEntry m e.1 e.2) a

/-- Merge all workers' partial maps. -/
def mergeAll (ms : List AggMap) : AggMap :=
  ms.foldl mergeMaps []

/-- First newline at or after index `i` of the buffer, or the buffer length
when none exists: `data.iter().enumerate().skip(i).find(b == \n)
.map(index).unwrap_or(data.len())`. -/
def nlAfter (data : List Nat) (i : Nat) : Nat :=
  ((findPos 10 (data.drop i)).map (i + ·)).getD data.length

/-- Boundary adjustment of a raw span start (src/main.rs lines 91-103):
a span starting at 0 is untouched; otherwise the start moves just past the
first newline found in `[start, rawEnd)`, and if no newline is there the
chunk is abandoned (`return`, modelled `none`). -/
def startAdj (data : List Nat) (s e : Nat) : Option Nat :=
  if s = 0 then some 0
  else (findPos 10 ((data.take e).drop s)).map (fun j => s + j + 1)

/-- The slice a chunk actually parses: `data[start'..end']` with the start
adjusted by `startAdj` and the end extended to the next newline at or after
the raw end (src/main.rs lines 104-112). -/
def chunkSlice (data : List Nat) (s e : Nat) : Option (List Nat) :=
  (startAdj data s e).map (fun s' => (data.take (nlAfter data e)).drop s')

/-- The `splitNL` pieces a chunk owns (empty when the chunk is abandoned). -/
def chunkPieces (data : List Nat) (se : Nat × Nat) : List (List Nat) :=
  ((chunkSlice data se.1 se.2).map splitNL).getD []

/-- Entries contributed by one chunk (`process_chunk`): an abandoned chunk
contributes nothing, otherwise the slice is parsed. -/
def chunkEntries (data : List Nat) (s e : Nat) : Option (List Entry) :=
  ((chunkSlice data s e).map parseEntries).getD (some [])

/-- The chunk size `WORK_CHUNK` (2 MiB). -/
def WORK_CHUNK : Nat := 2097152

/-- Raw spans handed out by the atomic cursor starting at `off`:
`(offset, min(offset + W, n))` while `offset < n`.  The cursor advances by
`W ≥ 1` each claim, so fuel `n` is enough from `off = 0`. -/
def rawSpansAux (W : Nat) : Nat → Nat → Nat → List (Nat × Nat)
  | 0, _, _ => []
  | fuel + 1, off, n =>
    if off < n then (off, min (off + W) n) :: rawSpansAux W fuel (off + W) n
    else []

/-- All raw spans the cursor hands out over a buffer of length `n`. -/
def rawSpans (W n : Nat) : List (Nat × Nat) := rawSpansAux W n 0 n

/-- The worker loop `work`: repeatedly claim a span and run `process_chunk`
on it, accumulating into one local map.  `none` propagates a parse failure
(debug panic / release UB on malformed input). -/
def work (data : List Nat) (spans : List (Nat × Nat)) : Option AggMap :=
  spans.foldl
    (fun acc se => acc.bind fun m => (chunkEntries data se.1 se.2).map (processEntries m))
    (some [])

/-- Run every worker of a schedule (each worker owns the spans it claimed
from the cursor). -/
def workerMapsM (data : List Nat) : List (List (Nat × Nat)) → Option (List AggMap)
  | [] => some []
  | spans :: rest =>
    (work data spans).bind fun m => (workerMapsM data rest).map fun ms => m :: ms

/-- Sequential single-worker processing of the whole buffer: parse every
record in order into one map. -/
def seqMap (data : List Nat) : Option AggMap :=
  (parseEntries data).map (processEntries [])

/-- The rounded mean of `main` (src/main.rs lines 273-277).  The source
tests `sum ^ (count as i64) >= 0`; since `count` is a nonnegative `i64`
(a `usize` below 2^63), the xor of the sign bits is nonnegative exactly when
`sum >= 0`.  Division is Rust `i64` division, i.e. truncation toward zero. -/
def meanOf (sum : Int) (count : Nat) : Int :=
  if 0 ≤ sum then (sum + (count / 2 : Nat)).tdiv count
  else (sum - (count / 2 : Nat)).tdiv count

/-- ASCII digit rendering `n as u8 + b'0'`. -/
def todigit (n : Nat) : Nat := n + 48

/-- The fixed-point formatter `format_fixed` of `main` (src/main.rs lines
279-321).  Magnitudes of 1000 and above hit the `unreachable!` arm,
modelled as `none`. -/
def format_fixed (n : Int) : Option (List Nat) :=
  if 100 ≤ n ∧ n ≤ 999 then
    some [todigit (n.toNat / 100), todigit (n.toNat / 10 % 10), 46, todigit (n.toNat % 10)]
  else if 0 ≤ n ∧ n ≤ 99 then
    some [todigit (n.toNat / 10 % 10), 46, todigit (n.toNat % 10)]
  else if -99 ≤ n ∧ n ≤ -1 then
    some [45, todigit ((-n).toNat / 10 % 10), 46, todigit ((-n).toNat % 10)]
  else if -999 ≤ n ∧ n ≤ -100 then
    some [45, todigit ((-n).toNat / 100 % 10), todigit ((-n).toNat / 10 % 10), 46,
          todigit ((-n).toNat % 10)]
  else none

/-- Byte-wise lexicographic order on keys (`Ord` on `&[u8]`), as used by
`sort_unstable_by_key`. -/
def lexLe : List Nat → List Nat → Bool
  | [], _ => true
  | _ :: _, [] => false
  | a :: as, b :: bs => if a < b then true else if b < a then false else lexLe as bs

/-- Insertion into a key-sorted list. -/
def insertByKey (x : List Nat × MeasurementRecord) :
    List (List Nat × MeasurementRecord) → List (List Nat × MeasurementRecord)
  | [] => [x]
  | y :: ys => if lexLe x.1 y.1 then x :: y :: ys else y :: insertByKey x ys

/-- Sort the collected `(station, record)` pairs ascending by key bytes.
The source uses an unstable sort; keys are unique, so any correct sort
produces the same list. -/
def sortByKey (m : AggMap) : AggMap :=
  m.foldr insertByKey []

/-- Render one output line `station;min;mean;max\n` (the write sequence of
the output loop in `main`). -/
def formatRecord (kr : List Nat × MeasurementRecord) : Option (List Nat) :=
  (format_fixed kr.2.min).bind fun a =>
    (format_fixed (meanOf kr.2.sum kr.2.count)).bind fun b =>
      (format_fixed kr.2.max).map fun c =>
        kr.1 ++ 59 :: (a ++ 59 :: (b ++ 59 :: (c ++ [10])))

/-- Render all sorted lines. -/
def renderAll : AggMap → Option (List Nat)
  | [] => some []
  | kr :: rest =>
    (formatRecord kr).bind fun x => (renderAll rest).map fun y => x ++ y

/-- The output phase of `main`: sort by key, then render each record. -/
def outputOf (m : AggMap) : Option (List Nat) :=
  renderAll (sortByKey m)

/-- The whole program on a given cursor schedule: run all workers, merge
their partial maps, and render the report. -/
def runAll (data : List Nat) (sched : List (List (Nat × Nat))) : Option (List Nat) :=
  (workerMapsM data sched).bind (fun ms => outputOf (mergeAll ms))

/-- Bump-arena capacity `BUMP_CAP` (1 MiB). -/
def BUMP_CAP : Nat := 1048576

/-- Observable state of `BumpAlloc`: offset into the current block, number
of blocks fetched from the system allocator, and (instrumentation) the
number of `alloc_slice` calls made. -/
structure BumpAlloc where
  len : Nat
  chunks : Nat
  allocCount : Nat
  deriving Repr, DecidableEq

/-- `BumpAlloc::alloc`: rotate to a fresh block when the request does not
fit, then advance the offset. -/
def BumpAlloc.alloc (a : BumpAlloc) (n : Nat) : BumpAlloc :=
  if BUMP_CAP < a.len + n then
    { len := n, chunks := a.chunks + 1, allocCount := a.allocCount + 1 }
  else
    { len := a.len + n, chunks := a.chunks, allocCount := a.allocCount + 1 }

/-- `handle_entry` with the arena state threaded through: the
`or_insert_with` closure (and hence `bump.alloc_slice`) runs only when the
key is absent. -/
def handleEntryA (st : AggMap × BumpAlloc) (e : Entry) : AggMap × BumpAlloc :=
  if (lookupRec st.1 e.1).isSome then (updateMap st.1 e.1 e.2, st.2)
  else (updateMap st.1 e.1 e.2, st.2.alloc e.1.length)

/-- Process entries with the arena state threaded through. -/
def processEntriesA (st : AggMap × BumpAlloc) (es : List Entry) : AggMap × BumpAlloc :=
  es.foldl handleEntryA st

/-- Modelled from the spec: round half away from zero of `sum / count`,
the mathematical rounding mode the spec names for the reported mean. -/
def roundHalfAwaySpec (sum : Int) (count : Nat) : Int :=
  if 0 ≤ sum then ((2 * sum.toNat + count) / (2 * count) : Nat)
  else -(((2 * (-sum).toNat + count) / (2 * count) : Nat) : Int)

/-- Specification-level record of a multiset of contributing values:
`count` is the number of observations, `sum` their total, and every value
lies between `min` and `max`. -/
def RecordInv (r : MeasurementRecord) (vs : List Int) : Prop :=
  r.count = vs.length ∧ r.sum = vs.sum ∧ vs ≠ [] ∧
    ∀ v ∈ vs, r.min ≤ v ∧ v ≤ r.max

/-- The values contributed to key `k` by an entry list. -/
def valuesFor (es : List Entry) (k : List Nat) : List Int :=
  (es.filter (fun e => e.1 = k)).map Prod.snd

/-- Optional-record update for one entry (lookup-level semantics of
`handle_entry`). -/
def applyVal (o : Option MeasurementRecord) (v : Int) : MeasurementRecord :=
  match o with
  | none => initRecord v
  | some r => addValue r v

/-- Effect of one entry on the optional record stored under key `k`. -/
def stepVal (k : List Nat) (o : Option MeasurementRecord) (e : Entry) : Option MeasurementRecord :=
  if e.1 = k then some (applyVal o e.2) else o

/-- Lookup-level result of processing an entry list: fold `applyVal` over
the values for the key. -/
def recordOf (es : List Entry) (k : List Nat) : Option MeasurementRecord :=
  es.foldl (stepVal k) none

/-- Pointwise combination of optional records. -/
def combineOpt : Option MeasurementRecord → Option MeasurementRecord → Option MeasurementRecord
  | none, b => b
  | some a, none => some a
  | some a, some b => some (combine a b)

/-- Keys of an aggregation map, in storage order. -/
def keysOf (m : AggMap) : List (List Nat) := m.map Prod.fst

/-- Entries a chunk contributes on well-formed input (each well-formed piece
yields its record). -/
def chunkEntriesList (data : List Nat) (sp : Nat × Nat) : List Entry :=
  (chunkPieces data sp).filterMap parsePiece

/-- A valid integer part per the input contract: 1-3 digits, optionally
signed (a 2-byte part may start with `-`; a 3-byte part may start with any
byte since the decoder ignores it -- validity only constrains the bytes the
decoder reads). -/
def ValidIntPart (ip : List Nat) : Prop :=
  (∃ a, ip = [a] ∧ 48 ≤ a ∧ a ≤ 57) ∨
  (∃ a b, ip = [a, b] ∧ (a = 45 ∨ (48 ≤ a ∧ a ≤ 57)) ∧ 48 ≤ b ∧ b ≤ 57) ∨
  (∃ a b c, ip = [a, b, c] ∧ 48 ≤ b ∧ b ≤ 57 ∧ 48 ≤ c ∧ c ≤ 57)

/-- Range invariant used for the formatter-safety argument: all record
fields bounded by the value range `[lo, hi]`. -/
def BddRec (lo hi : Int) (r : MeasurementRecord) : Prop :=
  lo ≤ r.min ∧ r.min ≤ r.max ∧ r.max ≤ hi ∧ 1 ≤ r.count ∧
    lo * (r.count : Int) ≤ r.sum ∧ r.sum ≤ hi * (r.count : Int)

/-- The byte buffer `Hamburg;12.0\nHamburg;8.0\nBerlin;5.5\n`. -/
def hamburgBuffer : List Nat :=
  [72, 97, 109, 98, 117, 114, 103, 59, 49, 50, 46, 48, 10,
   72, 97, 109, 98, 117, 114, 103, 59, 56, 46, 48, 10,
   66, 101, 114, 108, 105, 110, 59, 53, 46, 53, 10]

/-- The byte report `Berlin;5.5;5.5;5.5\nHamburg;8.0;10.0;12.0\n`. -/
def expectedReport : List Nat :=
  [66, 101, 114, 108, 105, 110, 59, 53, 46, 53, 59, 53, 46, 53, 59, 53, 46, 53, 10,
   72, 97, 109, 98, 117, 114, 103, 59, 56, 46, 48, 59, 49, 48, 46, 48, 59, 49, 50, 46, 48, 10]

/-- The merged map the single busy worker produces on `hamburgBuffer`. -/
def mainChunkMap : AggMap :=
  [([72, 97, 109, 98, 117, 114, 103], { count := 2, sum := 200, min := 80, max := 120 }),
   ([66, 101, 114, 108, 105, 110], { count := 1, sum := 55, min := 55, max := 55 })]

/-! ### Basic list facts -/

theorem take_append_le (xs ys : List Nat) : ∀ i, i ≤ xs.length → (xs ++ ys).take i = xs.take i := by
  induction xs with
  | nil => intro i hi; have h0 : i = 0 := Nat.le_zero.mp (by simpa using hi); subst h0; simp
  | cons x xs ih =>
    intro i hi
    cases i with
    | zero => simp
    | succ i => simpa using ih i (by simpa using hi)

theorem drop_append_le (xs ys : List Nat) : ∀ i, i ≤ xs.length → (xs ++ ys).drop i = xs.drop i ++ ys := by
  induction xs with
  | nil => intro i hi; have h0 : i = 0 := Nat.le_zero.mp (by simpa using hi); subst h0; simp
  | cons x xs ih =>
    intro i hi
    cases i with
    | zero => simp
    | succ i => simpa using ih i (by simpa using hi)

theorem drop_append_add (xs ys : List Nat) (k : Nat) :
    (xs ++ ys).drop (xs.length + k) = ys.drop k := by
  induction xs with
  | nil => simp
  | cons x xs ih => simp [Nat.succ_add, ih]

theorem getq_append_lt (xs ys : List Nat) : ∀ i, i < xs.length → (xs ++ ys)[i]? = xs[i]? := by
  induction xs with
  | nil => intro i hi; simp at hi
  | cons x xs ih =>
    intro i hi
    cases i with
    | zero => simp
    | succ i => simpa using ih i (by simpa using hi)

theorem getq_append_add (xs ys : List Nat) (k : Nat) :
    (xs ++ ys)[xs.length + k]? = ys[k]? := by
  induction xs with
  | nil => simp
  | cons x xs ih => simpa [Nat.succ_add] using ih

theorem flatten_eq_nil_all {α : Type} (ss : List (List α)) (h : ss.flatten = []) :
    ∀ l ∈ ss, l = [] := by
  induction ss with
  | nil => simp
  | cons s ss ih =>
    simp only [List.flatten_cons, List.append_eq_nil] at h
    intro l hl
    rcases List.mem_cons.mp hl with rfl | hl
    · exact h.1
    · exact ih h.2 l hl

/-! ### `findPos` facts -/

theorem findPos_none_iff (t : Nat) (l : List Nat) : findPos t l = none ↔ t ∉ l := by
  induction l with
  | nil => simp [findPos]
  | cons b l ih =>
    by_cases hb : b = t
    · subst hb; simp [findPos]
    · have htb : ¬ t = b := fun h2 => hb h2.symm
      simp only [findPos, if_neg hb, List.mem_cons]
      cases h : findPos t l with
      | none =>
        have hm : t ∉ l := ih.mp h
        simp [h, htb, hm]
      | some j =>
        have hm : t ∈ l := by
          by_contra hc
          rw [ih.mpr hc] at h; cases h
        simp [hm]

theorem findPos_some_lt (t : Nat) (l : List Nat) : ∀ j, findPos t l = some j → j < l.length := by
  induction l with
  | nil => intro j h; simp [findPos] at h
  | cons b l ih =>
    intro j h
    by_cases hb : b = t
    · rw [findPos, if_pos hb] at h
      have h0 : j = 0 := by simpa using h.symm
      subst h0; simp
    · rw [findPos, if_neg hb] at h
      cases hf : findPos t l with
      | none => rw [hf] at h; cases h
      | some j' =>
        rw [hf] at h
        have hj : j = j' + 1 := by simpa using h.symm
        subst hj
        have := ih j' hf
        simp only [List.length_cons]
        omega

theorem findPos_drop (t : Nat) (l : List Nat) : ∀ j, findPos t l = some j →
    l.drop j = t :: l.drop (j + 1) := by
  induction l with
  | nil => intro j h; simp [findPos] at h
  | cons b l ih =>
    intro j h
    by_cases hb : b = t
    · rw [findPos, if_pos hb] at h
      have h0 : j = 0 := by simpa using h.symm
      subst h0; simp [hb]
    · rw [findPos, if_neg hb] at h
      cases hf : findPos t l with
      | none => rw [hf] at h; cases h
      | some j' =>
        rw [hf] at h
        have hj : j = j' + 1 := by simpa using h.symm
        subst hj
        simpa using ih j' hf

theorem findPos_take (t : Nat) (l : List Nat) : ∀ j, findPos t l = some j → t ∉ l.take j := by
  induction l with
  | nil => intro j h; simp [findPos] at h
  | cons b l ih =>
    intro j h
    by_cases hb : b = t
    · rw [findPos, if_pos hb] at h
      have h0 : j = 0 := by simpa using h.symm
      subst h0; simp
    · rw [findPos, if_neg hb] at h
      cases hf : findPos t l with
      | none => rw [hf] at h; cases h
      | some j' =>
        rw [hf] at h
        have hj : j = j' + 1 := by simpa using h.symm
        subst hj
        simp only [List.take_succ_cons, List.mem_cons, not_or]
        exact ⟨fun h2 => hb h2.symm, ih j' hf⟩

theorem findPos_append_left (t : Nat) (xs ys : List Nat) (j : Nat)
    (h : findPos t xs = some j) : findPos t (xs ++ ys) = some j := by
  induction xs generalizing j with
  | nil => simp [findPos] at h
  | cons b xs ih =>
    rw [List.cons_append, findPos]
    rw [findPos] at h
    by_cases hb : b = t
    · rwa [if_pos hb] at h ⊢
    · rw [if_neg hb] at h ⊢
      cases hf : findPos t xs with
      | none => rw [hf] at h; cases h
      | some j' =>
        rw [hf] at h
        rw [ih j' hf]
        exact h

theorem findPos_append_none (t : Nat) (xs ys : List Nat)
    (h : findPos t xs = none) :
    findPos t (xs ++ ys) = (findPos t ys).map (xs.length + ·) := by
  induction xs with
  | nil => cases hf : findPos t ys <;> simp [hf]
  | cons b xs ih =>
    rw [findPos] at h
    rw [List.cons_append, findPos]
    by_cases hb : b = t
    · rw [if_pos hb] at h; cases h
    · rw [if_neg hb] at h ⊢
      have hx : findPos t xs = none := by
        cases hf : findPos t xs with
        | none => rfl
        | some j' => rw [hf] at h; cases h
      rw [ih hx]
      cases hf : findPos t ys with
      | none => simp
      | some j' =>
        simp only [Option.map_some, List.length_cons]
        have : xs.length + j' + 1 = xs.length + 1 + j' := by omega
        simp [this]

theorem findPos_mid (t : Nat) (xs ys : List Nat) (h : t ∉ xs) :
    findPos t (xs ++ t :: ys) = some xs.length := by
  have hn : findPos t xs = none := (findPos_none_iff t xs).mpr h
  rw [findPos_append_none t xs _ hn]
  simp [findPos]

/-! ### `splitNL` / `joinNL` facts -/

theorem splitNL_ne_nil (l : List Nat) : splitNL l ≠ [] := by
  cases l with
  | nil => simp [splitNL]
  | cons b l =>
    by_cases hb : b = 10
    · simp [splitNL, hb]
    · simp only [splitNL, if_neg hb]
      cases splitNL l <;> simp

theorem splitNL_append_nl (x y : List Nat) :
    splitNL (x ++ 10 :: y) = splitNL x ++ splitNL y := by
  induction x with
  | nil => simp [splitNL]
  | cons b x ih =>
    by_cases hb : b = 10
    · simp [splitNL, hb, ih]
    · simp only [List.cons_append, splitNL, List.append_eq, if_neg hb]
      cases hx : splitNL x with
      | nil => exact absurd hx (splitNL_ne_nil x)
      | cons h t =>
        rw [ih, hx]
        simp

theorem joinNL_splitNL (l : List Nat) : joinNL (splitNL l) = l := by
  induction l with
  | nil => simp [splitNL, joinNL]
  | cons b l ih =>
    by_cases hb : b = 10
    · subst hb
      simp only [splitNL, if_pos rfl]
      cases hx : splitNL l with
      | nil => exact absurd hx (splitNL_ne_nil l)
      | cons h t =>
        rw [hx] at ih
        simp [joinNL, ih]
    · simp only [splitNL, if_neg hb]
      cases hx : splitNL l with
      | nil => exact absurd hx (splitNL_ne_nil l)
      | cons h t =>
        rw [hx] at ih
        cases t with
        | nil =>
          simp only [joinNL] at ih ⊢
          rw [ih]
        | cons h2 t2 =>
          simp only [joinNL] at ih ⊢
          rw [← ih]
          simp

/-! ### `nlAfter` facts -/

theorem nlAfter_some (data : List Nat) (i j : Nat) (hf : findPos 10 (data.drop i) = some j) :
    nlAfter data i = i + j := by
  simp [nlAfter, hf]

theorem nlAfter_none (data : List Nat) (i : Nat) (hf : findPos 10 (data.drop i) = none) :
    nlAfter data i = data.length := by
  simp [nlAfter, hf]

theorem nlAfter_le_length (data : List Nat) (i : Nat) :
    nlAfter data i ≤ data.length := by
  cases hf : findPos 10 (data.drop i) with
  | none => rw [nlAfter_none data i hf]
  | some j =>
    rw [nlAfter_some data i j hf]
    have hlt := findPos_some_lt _ _ _ hf
    simp only [List.length_drop] at hlt
    omega

theorem le_nlAfter (data : List Nat) (i : Nat) (h : i ≤ data.length) : i ≤ nlAfter data i := by
  cases hf : findPos 10 (data.drop i) with
  | none => rw [nlAfter_none data i hf]; exact h
  | some j => rw [nlAfter_some data i j hf]; omega

theorem nlAfter_newline (data : List Nat) (i : Nat) (h : nlAfter data i < data.length) :
    data.drop (nlAfter data i) = 10 :: data.drop (nlAfter data i + 1) := by
  cases hf : findPos 10 (data.drop i) with
  | none => rw [nlAfter_none data i hf] at h; omega
  | some j =>
    rw [nlAfter_some data i j hf] at h ⊢
    have hd := findPos_drop _ _ _ hf
    rw [List.drop_drop, List.drop_drop] at hd
    rw [Nat.add_assoc]
    exact hd

theorem drop_window (data : List Nat) (s e : Nat) (hse : s ≤ e) (hen : e ≤ data.length) :
    data.drop s = (data.take e).drop s ++ data.drop e := by
  conv_lhs => rw [← List.take_append_drop e data]
  rw [drop_append_le]
  simp only [List.length_take]
  omega

theorem window_some (data : List Nat) (s e j : Nat) (hse : s ≤ e) (hen : e ≤ data.length)
    (hf : findPos 10 ((data.take e).drop s) = some j) :
    nlAfter data s = s + j ∧ s + j < e := by
  have hlen : ((data.take e).drop s).length = e - s := by
    simp only [List.length_drop, List.length_take]
    omega
  have hjlt : j < e - s := by
    have := findPos_some_lt _ _ _ hf
    omega
  have hdecomp := drop_window data s e hse hen
  have hfull : findPos 10 (data.drop s) = some j := by
    rw [hdecomp]
    exact findPos_append_left _ _ _ _ hf
  exact ⟨nlAfter_some data s j hfull, by omega⟩

theorem window_none (data : List Nat) (s e : Nat) (hse : s ≤ e) (hen : e ≤ data.length)
    (hf : findPos 10 ((data.take e).drop s) = none) :
    nlAfter data s = nlAfter data e := by
  have hlen : ((data.take e).drop s).length = e - s := by
    simp only [List.length_drop, List.length_take]
    omega
  have hdecomp := drop_window data s e hse hen
  have h2 : findPos 10 (data.drop s) = (findPos 10 (data.drop e)).map ((e - s) + ·) := by
    rw [hdecomp, findPos_append_none _ _ _ hf, hlen]
  cases hf2 : findPos 10 (data.drop e) with
  | none =>
    rw [hf2] at h2
    rw [nlAfter_none data s (by simpa using h2), nlAfter_none data e hf2]
  | some j =>
    rw [hf2] at h2
    simp only [Option.map_some'] at h2
    rw [nlAfter_some data s _ h2, nlAfter_some data e j hf2]
    omega

/-! ### Parser fuel irrelevance and stepping -/

theorem parseEntriesF_ne (fuel : Nat) (data : List Nat) (h : data ≠ []) :
    parseEntriesF (fuel + 1) data =
      (findPos 59 data).bind fun i =>
        (findPos 46 (data.drop (i + 1))).bind fun j =>
          ((data.drop (i + 1))[j+1]?).bind fun d =>
            (decodeValue ((data.drop (i + 1)).take j) d).bind fun v =>
              if j + 3 ≤ (data.drop (i + 1)).length then
                (parseEntriesF fuel ((data.drop (i + 1)).drop (j + 3))).map
                  (fun es => (data.take i, v) :: es)
              else some [(data.take i, v)] := by
  rw [parseEntriesF.eq_def]
  rw [if_neg h]

theorem parseEntriesF_nil (fuel : Nat) : parseEntriesF fuel [] = some [] := by
  rw [parseEntriesF.eq_def]
  rw [if_pos rfl]

theorem parseF_fuel : ∀ f g data, data.length ≤ f → data.length ≤ g →
    parseEntriesF f data = parseEntriesF g data := by
  intro f
  induction f with
  | zero =>
    intro g data hf hg
    have h0 : data = [] := List.eq_nil_of_length_eq_zero (Nat.le_zero.mp hf)
    subst h0
    rw [parseEntriesF_nil, parseEntriesF_nil]
  | succ f ih =>
    intro g data hf hg
    cases data with
    | nil => rw [parseEntriesF_nil, parseEntriesF_nil]
    | cons b l =>
      cases g with
      | zero => simp at hg
      | succ g =>
        rw [parseEntriesF_ne f _ (by simp), parseEntriesF_ne g _ (by simp)]
        cases h59 : findPos 59 (b :: l) with
        | none => rfl
        | some i =>
          simp only [Option.bind_some, Option.some_bind]
          cases h46 : findPos 46 ((b :: l).drop (i + 1)) with
          | none => rfl
          | some j =>
            simp only [Option.bind_some, Option.some_bind]
            cases hd : ((b :: l).drop (i + 1))[j+1]? with
            | none => rfl
            | some d =>
              simp only [Option.bind_some, Option.some_bind]
              cases hv : decodeValue (((b :: l).drop (i + 1)).take j) d with
              | none => rfl
              | some v =>
                simp only [Option.bind_some, Option.some_bind]
                by_cases hle : j + 3 ≤ ((b :: l).drop (i + 1)).length
                · rw [if_pos hle, if_pos hle]
                  have hlb : (((b :: l).drop (i + 1)).drop (j + 3)).length ≤ l.length := by
                    simp only [List.length_drop, List.length_cons]
                    omega
                  have hf2 : l.length + 1 ≤ f + 1 := by simpa using hf
                  have hg2 : l.length + 1 ≤ g + 1 := by simpa using hg
                  rw [ih g _ (by omega) (by omega)]
                · rw [if_neg hle, if_neg hle]

theorem parsePiece_nil : parsePiece [] = none := rfl

theorem parseEntries_nil : parseEntries [] = some [] := rfl

theorem parse_step (p rest : List Nat) (ent : Entry) (h : parsePiece p = some ent) :
    parseEntries (p ++ 10 :: rest) = (parseEntries rest).map (fun es => ent :: es) := by
  simp only [parsePiece] at h
  cases h59 : findPos 59 p with
  | none => simp [h59] at h
  | some i =>
    rw [h59] at h
    simp only [Option.some_bind] at h
    cases h46 : findPos 46 (p.drop (i + 1)) with
    | none => simp [h46] at h
    | some j =>
      rw [h46] at h
      simp only [Option.some_bind] at h
      by_cases hlen : (p.drop (i + 1)).length = j + 2
      · rw [if_pos hlen] at h
        cases hd : (p.drop (i + 1))[j+1]? with
        | none => simp [hd] at h
        | some d =>
          rw [hd] at h
          simp only [Option.some_bind] at h
          cases hv : decodeValue ((p.drop (i + 1)).take j) d with
          | none => simp [hv] at h
          | some v =>
            rw [hv] at h
            simp only [Option.map_some', Option.some.injEq] at h
            subst h
            have hi := findPos_some_lt _ _ _ h59
            have hD59 : findPos 59 (p ++ 10 :: rest) = some i :=
              findPos_append_left _ _ _ _ h59
            have hdropD : (p ++ 10 :: rest).drop (i + 1) = p.drop (i + 1) ++ 10 :: rest :=
              drop_append_le p _ (i + 1) (by omega)
            have hD46 : findPos 46 ((p ++ 10 :: rest).drop (i + 1)) = some j := by
              rw [hdropD]; exact findPos_append_left _ _ _ _ h46
            have hDd : ((p ++ 10 :: rest).drop (i + 1))[j+1]? = some d := by
              rw [hdropD, getq_append_lt _ _ _ (by omega)]; exact hd
            have hDtake : ((p ++ 10 :: rest).drop (i + 1)).take j = (p.drop (i + 1)).take j := by
              rw [hdropD]; exact take_append_le _ _ j (by omega)
            have hcond : j + 3 ≤ ((p ++ 10 :: rest).drop (i + 1)).length := by
              rw [hdropD]
              simp only [List.length_append, List.length_cons]
              omega
            have hDdrop : ((p ++ 10 :: rest).drop (i + 1)).drop (j + 3) = rest := by
              rw [hdropD]
              have h3 : j + 3 = (p.drop (i + 1)).length + 1 := by omega
              rw [h3, drop_append_add]
              simp
            have hDne : (p ++ 10 :: rest) ≠ [] := by simp
            have hDL : (p ++ 10 :: rest).length = (p.length + rest.length) + 1 := by
              simp only [List.length_append, List.length_cons]
              omega
            show parseEntriesF (p ++ 10 :: rest).length (p ++ 10 :: rest) = _
            rw [hDL, parseEntriesF_ne _ _ hDne, hD59]
            simp only [Option.some_bind]
            rw [hD46]
            simp only [Option.some_bind]
            rw [hDd]
            simp only [Option.some_bind]
            rw [hDtake, hv]
            simp only [Option.some_bind]
            rw [if_pos hcond, hDdrop]
            have htk : (p ++ 10 :: rest).take i = p.take i :=
              take_append_le _ _ i (by omega)
            rw [htk, parseF_fuel (p.length + rest.length) rest.length rest (by omega) (Nat.le_refl _)]
            rfl
      · rw [if_neg hlen] at h
        cases h

theorem parse_last (p : List Nat) (ent : Entry) (h : parsePiece p = some ent) :
    parseEntries p = some [ent] := by
  simp only [parsePiece] at h
  cases h59 : findPos 59 p with
  | none => simp [h59] at h
  | some i =>
    rw [h59] at h
    simp only [Option.some_bind] at h
    cases h46 : findPos 46 (p.drop (i + 1)) with
    | none => simp [h46] at h
    | some j =>
      rw [h46] at h
      simp only [Option.some_bind] at h
      by_cases hlen : (p.drop (i + 1)).length = j + 2
      · rw [if_pos hlen] at h
        cases hd : (p.drop (i + 1))[j+1]? with
        | none => simp [hd] at h
        | some d =>
          rw [hd] at h
          simp only [Option.some_bind] at h
          cases hv : decodeValue ((p.drop (i + 1)).take j) d with
          | none => simp [hv] at h
          | some v =>
            rw [hv] at h
            simp only [Option.map_some', Option.some.injEq] at h
            subst h
            have hi := findPos_some_lt _ _ _ h59
            have hne : p ≠ [] := by
              intro h0
              subst h0
              simp at hi
            have hPL : p.length = (p.length - 1) + 1 := by omega
            have hcond : ¬ (j + 3 ≤ (p.drop (i + 1)).length) := by omega
            show parseEntriesF p.length p = _
            rw [hPL, parseEntriesF_ne _ _ hne, h59]
            simp only [Option.some_bind]
            rw [h46]
            simp only [Option.some_bind]
            rw [hd]
            simp only [Option.some_bind]
            rw [hv]
            simp only [Option.some_bind]
            rw [if_neg hcond]
      · rw [if_neg hlen] at h
        cases h

theorem parse_join : ∀ ps, okPiecesB ps = true →
    parseEntries (joinNL ps) = some (ps.filterMap parsePiece) := by
  intro ps
  induction ps with
  | nil => intro; rfl
  | cons p ps ih =>
    cases ps with
    | nil =>
      intro hok
      simp only [okPiecesB, goodB, Bool.or_eq_true] at hok
      rcases hok with hok | hok
      · obtain ⟨ent, hent⟩ := Option.isSome_iff_exists.mp hok
        show parseEntries p = _
        rw [parse_last p ent hent]
        simp [List.filterMap, hent]
      · have hp : p = [] := by
          cases p with
          | nil => rfl
          | cons b l => simp at hok
        subst hp
        rfl
    | cons q ps2 =>
      intro hok
      simp only [okPiecesB, Bool.and_eq_true, goodB] at hok
      obtain ⟨ent, hent⟩ := Option.isSome_iff_exists.mp hok.1
      show parseEntries (p ++ 10 :: joinNL (q :: ps2)) = _
      rw [parse_step _ _ _ hent, ih (by simpa [okPiecesB] using hok.2)]
      simp [List.filterMap_cons, hent]

theorem chunkEntries_of_ok (data : List Nat) (s e : Nat)
    (hok : okPiecesB (chunkPieces data (s, e)) = true) :
    chunkEntries data s e = some ((chunkPieces data (s, e)).filterMap parsePiece) := by
  cases hcs : chunkSlice data s e with
  | none => simp [chunkEntries, chunkPieces, hcs]
  | some sl =>
    simp only [chunkPieces, hcs, Option.map_some', Option.getD_some] at hok ⊢
    simp only [chunkEntries, hcs, Option.map_some', Option.getD_some]
    have hj := parse_join (splitNL sl) hok
    rw [joinNL_splitNL sl] at hj
    exact hj

/-! ### Chunk partitioning facts -/

theorem rawSpansAux_stop (W fuel off n : Nat) (h : n ≤ off) :
    rawSpansAux W fuel off n = [] := by
  cases fuel with
  | zero => rfl
  | succ fuel => rw [rawSpansAux, if_neg (by omega)]

theorem nlAfter_full (data : List Nat) (i : Nat) (h : data.length ≤ i) :
    nlAfter data i = data.length := by
  apply nlAfter_none
  have hd : data.drop i = [] := by
    apply List.eq_nil_of_length_eq_zero
    simp only [List.length_drop]
    omega
  rw [hd]
  rfl

theorem startAdj_pos_some (data : List Nat) (s e j : Nat) (hs : 0 < s)
    (hw : findPos 10 ((data.take e).drop s) = some j) :
    startAdj data s e = some (s + j + 1) := by
  unfold startAdj
  rw [if_neg (by omega), hw]
  rfl

theorem startAdj_pos_none (data : List Nat) (s e : Nat) (hs : 0 < s)
    (hw : findPos 10 ((data.take e).drop s) = none) :
    startAdj data s e = none := by
  unfold startAdj
  rw [if_neg (by omega), hw]
  rfl

theorem chunkSlice_zero (data : List Nat) (e : Nat) :
    chunkSlice data 0 e = some (data.take (nlAfter data e)) := by
  unfold chunkSlice startAdj
  simp

theorem tiling_aux (data : List Nat) (W : Nat) (hW : 0 < W) :
    ∀ fuel off, 0 < off → data.length - off ≤ fuel →
      ((rawSpansAux W fuel off data.length).map (chunkPieces data)).flatten =
        if nlAfter data off < data.length then splitNL (data.drop (nlAfter data off + 1))
        else [] := by
  intro fuel
  induction fuel with
  | zero =>
    intro off h1 h2
    rw [rawSpansAux_stop _ _ _ _ (by omega)]
    rw [nlAfter_full data off (by omega)]
    simp
  | succ fuel ih =>
    intro off h1 h2
    by_cases hon : off < data.length
    · rw [rawSpansAux, if_pos hon]
      simp only [List.map_cons, List.flatten_cons]
      have hen : min (off + W) data.length ≤ data.length := by omega
      have hoe : off ≤ min (off + W) data.length := by omega
      cases hw : findPos 10 ((data.take (min (off + W) data.length)).drop off) with
      | some j =>
        obtain ⟨hnl, hlt⟩ := window_some data off (min (off + W) data.length) j hoe hen hw
        have hsa := startAdj_pos_some data off (min (off + W) data.length) j h1 hw
        have hcs : chunkSlice data off (min (off + W) data.length) =
            some ((data.take (nlAfter data (min (off + W) data.length))).drop (off + j + 1)) := by
          unfold chunkSlice
          rw [hsa]
          rfl
        have hpieces : chunkPieces data (off, min (off + W) data.length) =
            splitNL ((data.take (nlAfter data (min (off + W) data.length))).drop (off + j + 1)) := by
          unfold chunkPieces
          rw [hcs]
          rfl
        have hqe : min (off + W) data.length ≤ nlAfter data (min (off + W) data.length) :=
          le_nlAfter data _ hen
        have hqn : nlAfter data (min (off + W) data.length) ≤ data.length :=
          nlAfter_le_length data _
        rw [hpieces, if_pos (by omega), hnl]
        by_cases hq : nlAfter data (min (off + W) data.length) < data.length
        · -- interior chunk: slice ends just before a real newline
          have hew : min (off + W) data.length = off + W := by omega
          have hdec := drop_window data (off + j + 1)
            (nlAfter data (min (off + W) data.length)) (by omega) hqn
          have hq10 := nlAfter_newline data (min (off + W) data.length) hq
          rw [hq10] at hdec
          have hsplit : splitNL (data.drop (off + j + 1)) =
              splitNL ((data.take (nlAfter data (min (off + W) data.length))).drop (off + j + 1)) ++
                splitNL (data.drop (nlAfter data (min (off + W) data.length) + 1)) := by
            rw [hdec, splitNL_append_nl]
          have htail := ih (off + W) (by omega) (by omega)
          have h3 : nlAfter data (off + W) = nlAfter data (min (off + W) data.length) := by
            rw [hew]
          rw [h3] at htail
          rw [htail, if_pos hq, hsplit]
        · -- final chunk: no newline at or after the raw end
          have hqeq : nlAfter data (min (off + W) data.length) = data.length := by omega
          have htail : ((rawSpansAux W fuel (off + W) data.length).map (chunkPieces data)).flatten = [] := by
            by_cases hw2 : off + W < data.length
            · have hew : min (off + W) data.length = off + W := by omega
              have h3 : nlAfter data (off + W) = nlAfter data (min (off + W) data.length) := by
                rw [hew]
              rw [ih (off + W) (by omega) (by omega), if_neg (by omega)]
            · exact by rw [rawSpansAux_stop _ _ _ _ (by omega)]; rfl
          rw [htail, hqeq, List.take_length, List.append_nil]
      | none =>
        have hsa := startAdj_pos_none data off (min (off + W) data.length) h1 hw
        have hpieces : chunkPieces data (off, min (off + W) data.length) = [] := by
          unfold chunkPieces chunkSlice
          rw [hsa]
          rfl
        have hnn := window_none data off (min (off + W) data.length) hoe hen hw
        rw [hpieces, List.nil_append]
        by_cases hw2 : off + W < data.length
        · have hew : min (off + W) data.length = off + W := by omega
          have h3 : nlAfter data (off + W) = nlAfter data (min (off + W) data.length) := by
            rw [hew]
          rw [ih (off + W) (by omega) (by omega), h3.trans hnn.symm]
        · have hew : min (off + W) data.length = data.length := by omega
          rw [rawSpansAux_stop _ _ _ _ (by omega)]
          rw [hnn, hew, nlAfter_full data data.length (Nat.le_refl _)]
          simp
    · rw [rawSpansAux_stop _ _ _ _ (by omega)]
      rw [nlAfter_full data off (by omega)]
      simp

theorem chunk_tiling (data : List Nat) (W : Nat) (hW : 0 < W) (hne : data ≠ []) :
    splitNL data = ((rawSpans W data.length).map (chunkPieces data)).flatten := by
  have hn : 0 < data.length := List.length_pos.mpr hne
  have hstep : rawSpans W data.length =
      (0, min W data.length) :: rawSpansAux W (data.length - 1) W data.length := by
    rw [rawSpans]
    cases hL : data.length with
    | zero => omega
    | succ F =>
      rw [rawSpansAux, if_pos (by omega)]
      simp
  rw [hstep]
  simp only [List.map_cons, List.flatten_cons]
  have hcs0 := chunkSlice_zero data (min W data.length)
  have hpieces0 : chunkPieces data (0, min W data.length) =
      splitNL (data.take (nlAfter data (min W data.length))) := by
    unfold chunkPieces
    rw [hcs0]
    rfl
  rw [hpieces0]
  have hen : min W data.length ≤ data.length := by omega
  have hqe : min W data.length ≤ nlAfter data (min W data.length) := le_nlAfter data _ hen
  have hqn : nlAfter data (min W data.length) ≤ data.length := nlAfter_le_length data _
  by_cases hq : nlAfter data (min W data.length) < data.length
  · -- buffer continues past the first chunk's adjusted end
    have hew : min W data.length = W := by omega
    have hdec : data = data.take (nlAfter data (min W data.length)) ++
        data.drop (nlAfter data (min W data.length)) :=
      (List.take_append_drop _ data).symm
    have hq10 := nlAfter_newline data (min W data.length) hq
    rw [hq10] at hdec
    have hsplit : splitNL data =
        splitNL (data.take (nlAfter data (min W data.length))) ++
          splitNL (data.drop (nlAfter data (min W data.length) + 1)) := by
      conv_lhs => rw [hdec]
      rw [splitNL_append_nl]
    have htail := tiling_aux data W hW (data.length - 1) W (by omega) (by omega)
    have h3 : nlAfter data W = nlAfter data (min W data.length) := by rw [hew]
    rw [h3] at htail
    rw [htail, if_pos hq, hsplit]
  · have hqeq : nlAfter data (min W data.length) = data.length := by omega
    have htail : ((rawSpansAux W (data.length - 1) W data.length).map (chunkPieces data)).flatten = [] := by
      by_cases hw2 : W < data.length
      · have hew : min W data.length = W := by omega
        have h3 : nlAfter data W = nlAfter data (min W data.length) := by rw [hew]
        rw [tiling_aux data W hW (data.length - 1) W (by omega) (by omega), if_neg (by omega)]
      · exact by rw [rawSpansAux_stop _ _ _ _ (by omega)]; rfl
    rw [htail, hqeq, List.take_length, List.append_nil]

/-! ### Aggregation map lemmas -/

theorem lookup_updateMap (m : AggMap) (k' k : List Nat) (v : Int) :
    lookupRec (updateMap m k' v) k =
      if k' = k then some (applyVal (lookupRec m k) v) else lookupRec m k := by
  induction m with
  | nil =>
    by_cases h : k' = k <;> simp [updateMap, lookupRec, h, applyVal]
  | cons kr m ih =>
    obtain ⟨k2, r⟩ := kr
    by_cases h2 : k2 = k'
    · subst h2
      simp only [updateMap, if_pos rfl]
      by_cases h3 : k2 = k <;> simp [lookupRec, h3, applyVal]
    · simp only [updateMap, if_neg h2]
      by_cases h3 : k2 = k
      · subst h3
        have hne : ¬ k' = k2 := fun h => h2 h.symm
        simp [lookupRec, hne]
      · simp [lookupRec, h3, ih]

theorem lookup_processEntries (es : List Entry) : ∀ (m : AggMap) (k : List Nat),
    lookupRec (processEntries m es) k = es.foldl (stepVal k) (lookupRec m k) := by
  induction es with
  | nil => intro m k; rfl
  | cons e es ih =>
    intro m k
    show lookupRec (processEntries (updateMap m e.1 e.2) es) k = _
    rw [ih]
    simp only [List.foldl_cons]
    congr 1
    rw [lookup_updateMap]
    unfold stepVal
    by_cases h : e.1 = k <;> simp [h]

theorem lookup_processEntries_nil (es : List Entry) (k : List Nat) :
    lookupRec (processEntries [] es) k = recordOf es k :=
  lookup_processEntries es [] k

theorem combineOpt_none_right (o : Option MeasurementRecord) : combineOpt o none = o := by
  cases o <;> rfl

theorem combine_init (r : MeasurementRecord) (v : Int) :
    combine r (initRecord v) = addValue r v := by
  simp [combine, initRecord, addValue]

theorem combine_assoc (a b c : MeasurementRecord) :
    combine (combine a b) c = combine a (combine b c) := by
  simp only [combine, MeasurementRecord.mk.injEq]
  refine ⟨by omega, by ring, min_assoc _ _ _, max_assoc _ _ _⟩

theorem combine_comm (a b : MeasurementRecord) : combine a b = combine b a := by
  simp only [combine, MeasurementRecord.mk.injEq]
  refine ⟨by omega, by ring, min_comm _ _, max_comm _ _⟩

theorem foldl_combineOpt (es : List Entry) (k : List Nat) : ∀ o,
    es.foldl (stepVal k) o = combineOpt o (recordOf es k) := by
  induction es with
  | nil => intro o; exact (combineOpt_none_right o).symm
  | cons e es ih =>
    intro o
    have hr : recordOf (e :: es) k = es.foldl (stepVal k) (stepVal k none e) := rfl
    simp only [List.foldl_cons]
    rw [ih (stepVal k o e), hr, ih (stepVal k none e)]
    unfold stepVal
    by_cases h : e.1 = k
    · rw [if_pos h, if_pos h]
      cases o with
      | none => rfl
      | some r =>
        cases hX : recordOf es k with
        | none => simp [combineOpt, applyVal, combine_init]
        | some x =>
          simp only [combineOpt, applyVal]
          rw [← combine_assoc, combine_init]
    · rw [if_neg h, if_neg h]
      cases o <;> rfl

theorem recordOf_append (es1 es2 : List Entry) (k : List Nat) :
    recordOf (es1 ++ es2) k = combineOpt (recordOf es1 k) (recordOf es2 k) := by
  unfold recordOf
  rw [List.foldl_append]
  exact foldl_combineOpt es2 k _

theorem MeasurementRecord.ext2 (a b : MeasurementRecord) (h1 : a.count = b.count)
    (h2 : a.sum = b.sum) (h3 : a.min = b.min) (h4 : a.max = b.max) : a = b := by
  cases a; cases b; simp_all

theorem stepVal_eq_pos {k : List Nat} {e : Entry} (o : Option MeasurementRecord)
    (h : e.1 = k) : stepVal k o e = some (applyVal o e.2) := by
  simp [stepVal, h]

theorem stepVal_eq_neg {k : List Nat} {e : Entry} (o : Option MeasurementRecord)
    (h : ¬ e.1 = k) : stepVal k o e = o := by
  simp [stepVal, h]

theorem stepVal_comm (k : List Nat) (o : Option MeasurementRecord) (e1 e2 : Entry) :
    stepVal k (stepVal k o e1) e2 = stepVal k (stepVal k o e2) e1 := by
  by_cases h1 : e1.1 = k <;> by_cases h2 : e2.1 = k
  · rw [stepVal_eq_pos _ h1, stepVal_eq_pos _ h2, stepVal_eq_pos _ h2, stepVal_eq_pos _ h1]
    refine congrArg some (MeasurementRecord.ext2 _ _ ?_ ?_ ?_ ?_) <;>
      cases o <;> simp only [applyVal, initRecord, addValue] <;> omega
  · rw [stepVal_eq_pos _ h1, stepVal_eq_neg _ h2, stepVal_eq_neg _ h2, stepVal_eq_pos _ h1]
  · rw [stepVal_eq_neg _ h1, stepVal_eq_pos _ h2, stepVal_eq_neg _ h1]
  · rw [stepVal_eq_neg _ h1, stepVal_eq_neg _ h2, stepVal_eq_neg _ h1]

theorem foldl_stepVal_perm (k : List Nat) {es1 es2 : List Entry} (h : es1.Perm es2) :
    ∀ o, es1.foldl (stepVal k) o = es2.foldl (stepVal k) o := by
  induction h with
  | nil => intro o; rfl
  | cons x _ ih => intro o; simp only [List.foldl_cons]; exact ih _
  | swap x y l => intro o; simp only [List.foldl_cons]; rw [stepVal_comm]
  | trans _ _ ih1 ih2 => intro o; rw [ih1, ih2]

theorem recordOf_perm {es1 es2 : List Entry} (h : es1.Perm es2) (k : List Nat) :
    recordOf es1 k = recordOf es2 k :=
  foldl_stepVal_perm k h none

theorem keysOf_nil : keysOf [] = [] := rfl

theorem keysOf_cons (kr : List Nat × MeasurementRecord) (m : AggMap) :
    keysOf (kr :: m) = kr.1 :: keysOf m := rfl

theorem lookup_mergeEntry (m : AggMap) (k' k : List Nat) (r : MeasurementRecord) :
    lookupRec (mergeEntry m k' r) k =
      if k' = k then combineOpt (lookupRec m k) (some r) else lookupRec m k := by
  induction m with
  | nil =>
    by_cases h : k' = k <;> simp [mergeEntry, lookupRec, h, combineOpt]
  | cons kr m ih =>
    obtain ⟨k2, r2⟩ := kr
    by_cases h2 : k2 = k'
    · subst h2
      simp only [mergeEntry, if_pos rfl]
      by_cases h3 : k2 = k <;> simp [lookupRec, h3, combineOpt]
    · simp only [mergeEntry, if_neg h2]
      by_cases h3 : k2 = k
      · subst h3
        have hne : ¬ k' = k2 := fun h => h2 h.symm
        simp [lookupRec, hne]
      · simp [lookupRec, h3, ih]

theorem lookup_none_iff (m : AggMap) (k : List Nat) :
    lookupRec m k = none ↔ k ∉ keysOf m := by
  induction m with
  | nil => simp [lookupRec, keysOf]
  | cons kr m ih =>
    obtain ⟨k2, r⟩ := kr
    rw [keysOf_cons]
    by_cases h : k2 = k
    · subst h
      simp [lookupRec]
    · simp only [lookupRec, if_neg h, List.mem_cons]
      rw [ih]
      have hne : ¬ k = k2 := fun hh => h hh.symm
      simp [hne]

theorem mem_keys_updateMap (m : AggMap) (k' k : List Nat) (v : Int) :
    k ∈ keysOf (updateMap m k' v) ↔ k ∈ keysOf m ∨ k = k' := by
  induction m with
  | nil => simp [updateMap, keysOf]
  | cons kr m ih =>
    obtain ⟨k2, r⟩ := kr
    by_cases h : k2 = k'
    · subst h
      simp only [updateMap]
      rw [if_pos trivial]
      simp only [keysOf_cons, List.mem_cons]
      tauto
    · simp only [updateMap]
      rw [if_neg h]
      simp only [keysOf_cons, List.mem_cons]
      rw [ih]
      tauto

theorem nodup_updateMap (m : AggMap) (k : List Nat) (v : Int)
    (h : (keysOf m).Nodup) : (keysOf (updateMap m k v)).Nodup := by
  induction m with
  | nil => simp [updateMap, keysOf]
  | cons kr m ih =>
    obtain ⟨k2, r⟩ := kr
    rw [keysOf_cons, List.nodup_cons] at h
    by_cases h2 : k2 = k
    · subst h2
      simp only [updateMap]
      rw [if_pos trivial]
      simp only [keysOf_cons, List.nodup_cons]
      exact h
    · simp only [updateMap]
      rw [if_neg h2]
      simp only [keysOf_cons, List.nodup_cons]
      refine ⟨?_, ih h.2⟩
      intro hmem
      rcases (mem_keys_updateMap m k k2 v).mp hmem with hm | hm
      · exact h.1 hm
      · exact h2 hm

theorem nodup_processEntries (es : List Entry) : ∀ m, (keysOf m).Nodup →
    (keysOf (processEntries m es)).Nodup := by
  induction es with
  | nil => intro m h; exact h
  | cons e es ih => intro m h; exact ih _ (nodup_updateMap m e.1 e.2 h)

theorem lookup_mergeMaps (b : AggMap) : ∀ a : AggMap, (keysOf b).Nodup → ∀ k,
    lookupRec (mergeMaps a b) k = combineOpt (lookupRec a k) (lookupRec b k) := by
  induction b with
  | nil => intro a _ k; simp [mergeMaps, lookupRec, combineOpt_none_right]
  | cons e b ih =>
    intro a hb k
    obtain ⟨k2, r⟩ := e
    rw [keysOf_cons, List.nodup_cons] at hb
    show lookupRec (mergeMaps (mergeEntry a k2 r) b) k = _
    rw [ih _ hb.2 k, lookup_mergeEntry]
    by_cases h : k2 = k
    · subst h
      have hbnone : lookupRec b k2 = none := (lookup_none_iff b k2).mpr hb.1
      rw [hbnone, combineOpt_none_right, if_pos rfl]
      simp [lookupRec]
    · rw [if_neg h]
      simp [lookupRec, h]

theorem lookup_foldl_mergeMaps (ms : List AggMap) : (∀ b ∈ ms, (keysOf b).Nodup) →
    ∀ (a : AggMap) (k : List Nat),
      lookupRec (ms.foldl mergeMaps a) k =
        ms.foldl (fun o b => combineOpt o (lookupRec b k)) (lookupRec a k) := by
  induction ms with
  | nil => intro _ a k; rfl
  | cons b ms ih =>
    intro hms a k
    simp only [List.foldl_cons]
    rw [ih (fun x hx => hms x (List.mem_cons_of_mem _ hx)) (mergeMaps a b) k]
    congr 1
    exact lookup_mergeMaps b a (hms b (List.mem_cons_self _ _)) k

theorem foldl_combineOpt_flatten (k : List Nat) (xss : List (List Entry)) : ∀ es0 : List Entry,
    xss.foldl (fun o es => combineOpt o (recordOf es k)) (recordOf es0 k) =
      recordOf (es0 ++ xss.flatten) k := by
  induction xss with
  | nil => intro es0; simp
  | cons es xss ih =>
    intro es0
    simp only [List.foldl_cons]
    rw [← recordOf_append es0 es k, ih (es0 ++ es), List.flatten_cons, ← List.append_assoc]

/-! ### Worker loop lemmas -/

theorem processEntries_append (m : AggMap) (es1 es2 : List Entry) :
    processEntries (processEntries m es1) es2 = processEntries m (es1 ++ es2) := by
  simp [processEntries, List.foldl_append]

theorem work_aux (data : List Nat) (spans : List (Nat × Nat)) :
    (∀ sp ∈ spans, chunkEntries data sp.1 sp.2 = some (chunkEntriesList data sp)) →
    ∀ m : AggMap,
      spans.foldl
        (fun acc se => acc.bind fun m2 => (chunkEntries data se.1 se.2).map (processEntries m2))
        (some m) =
      some (processEntries m (spans.flatMap (chunkEntriesList data))) := by
  induction spans with
  | nil => intro _ m; rfl
  | cons sp spans ih =>
    intro h m
    simp only [List.foldl_cons, Option.some_bind]
    rw [h sp (List.mem_cons_self _ _)]
    simp only [Option.map_some']
    rw [ih (fun x hx => h x (List.mem_cons_of_mem _ hx)) (processEntries m (chunkEntriesList data sp))]
    rw [processEntries_append]
    rfl

theorem work_eq (data : List Nat) (spans : List (Nat × Nat))
    (h : ∀ sp ∈ spans, chunkEntries data sp.1 sp.2 = some (chunkEntriesList data sp)) :
    work data spans = some (processEntries [] (spans.flatMap (chunkEntriesList data))) :=
  work_aux data spans h []

theorem workerMapsM_eq (data : List Nat) (sched : List (List (Nat × Nat)))
    (h : ∀ spans ∈ sched, ∀ sp ∈ spans, chunkEntries data sp.1 sp.2 = some (chunkEntriesList data sp)) :
    workerMapsM data sched =
      some (sched.map (fun spans => processEntries [] (spans.flatMap (chunkEntriesList data)))) := by
  induction sched with
  | nil => rfl
  | cons spans sched ih =>
    show (work data spans).bind _ = _
    rw [work_eq data spans (h spans (List.mem_cons_self _ _)),
      ih (fun x hx => h x (List.mem_cons_of_mem _ hx))]
    simp

/-! ### Well-formed piece lists survive chunking -/

theorem okPiecesB_cons_ne (p : List Nat) (ps : List (List Nat)) (h : ps ≠ []) :
    okPiecesB (p :: ps) = (goodB p && okPiecesB ps) := by
  cases ps with
  | nil => exact absurd rfl h
  | cons q ps2 => rfl

theorem okPiecesB_append_right (xs ys : List (List Nat)) (h : okPiecesB (xs ++ ys) = true) :
    okPiecesB ys = true := by
  induction xs with
  | nil => exact h
  | cons x xs ih =>
    apply ih
    by_cases hxy : xs ++ ys = []
    · rw [hxy]; rfl
    · rw [List.cons_append, okPiecesB_cons_ne x _ hxy] at h
      exact ((Bool.and_eq_true _ _).mp h).2

theorem okPiecesB_append_left_good (xs ys : List (List Nat)) :
    okPiecesB (xs ++ ys) = true → ys ≠ [] → ∀ p ∈ xs, goodB p = true := by
  induction xs with
  | nil => simp
  | cons x xs ih =>
    intro h hy p hp
    have hne : xs ++ ys ≠ [] := by
      intro h0
      rcases List.append_eq_nil.mp h0 with ⟨_, h2⟩
      exact hy h2
    rw [List.cons_append, okPiecesB_cons_ne x _ hne] at h
    rcases List.mem_cons.mp hp with rfl | hp
    · exact ((Bool.and_eq_true _ _).mp h).1
    · exact ih ((Bool.and_eq_true _ _).mp h).2 hy p hp

theorem okPiecesB_of_all_good (ps : List (List Nat)) (h : ∀ p ∈ ps, goodB p = true) :
    okPiecesB ps = true := by
  induction ps with
  | nil => rfl
  | cons p ps ih =>
    cases ps with
    | nil => simp [okPiecesB, h p (List.mem_cons_self _ _)]
    | cons q ps2 =>
      rw [okPiecesB_cons_ne p _ (by simp)]
      refine (Bool.and_eq_true _ _).mpr ⟨h p (List.mem_cons_self _ _), ?_⟩
      exact ih (fun x hx => h x (List.mem_cons_of_mem _ hx))

theorem okPiecesB_middle (xs ps ys : List (List Nat))
    (h : okPiecesB (xs ++ (ps ++ ys)) = true) : okPiecesB ps = true := by
  have h2 : okPiecesB (ps ++ ys) = true := okPiecesB_append_right xs _ h
  by_cases hy : ys = []
  · subst hy
    simpa using h2
  · exact okPiecesB_of_all_good ps (okPiecesB_append_left_good ps ys h2 hy)

theorem okPieces_chunk (data : List Nat) (W : Nat) (hW : 0 < W) (hne : data ≠ [])
    (hok : okPiecesB (splitNL data) = true) :
    ∀ sp ∈ rawSpans W data.length, okPiecesB (chunkPieces data sp) = true := by
  intro sp hsp
  obtain ⟨l1, l2, hdecomp⟩ := List.append_of_mem hsp
  have ht := chunk_tiling data W hW hne
  rw [hdecomp, List.map_append, List.map_cons, List.flatten_append, List.flatten_cons] at ht
  rw [ht] at hok
  exact okPiecesB_middle _ _ _ hok

/-! ### Assembling the refinement argument -/

theorem flatten_map_flatMap {α β : Type} (f : α → List β) (ls : List (List α)) :
    (ls.map (fun l => l.flatMap f)).flatten = ls.flatten.flatMap f := by
  induction ls with
  | nil => rfl
  | cons l ls ih =>
    simp only [List.map_cons, List.flatten_cons, List.flatten_cons, ih, List.flatMap_append]

theorem perm_flatMap {α β : Type} (f : α → List β) {l1 l2 : List α} (h : l1.Perm l2) :
    (l1.flatMap f).Perm (l2.flatMap f) := by
  induction h with
  | nil => rfl
  | cons x _ ih => simpa using ih.append_left (f x)
  | swap x y l =>
    simp only [List.flatMap_cons]
    rw [← List.append_assoc, ← List.append_assoc]
    exact (List.perm_append_comm).append_right _
  | trans _ _ ih1 ih2 => exact ih1.trans ih2

theorem flatMap_chunkEntriesList (data : List Nat) (spans : List (Nat × Nat)) :
    spans.flatMap (chunkEntriesList data) =
      ((spans.map (chunkPieces data)).flatten).filterMap parsePiece := by
  induction spans with
  | nil => rfl
  | cons sp spans ih =>
    simp only [List.flatMap_cons, List.map_cons, List.flatten_cons, List.filterMap_append]
    rw [ih]
    rfl

theorem seq_parse_of_ok (data : List Nat) (hok : okPiecesB (splitNL data) = true) :
    parseEntries data = some ((splitNL data).filterMap parsePiece) := by
  have h := parse_join (splitNL data) hok
  rwa [joinNL_splitNL data] at h

theorem lookup_merged_eq (data : List Nat) (sched : List (List (Nat × Nat))) (k : List Nat) :
    lookupRec (mergeAll (sched.map
        (fun spans => processEntries [] (spans.flatMap (chunkEntriesList data))))) k =
      recordOf (sched.flatten.flatMap (chunkEntriesList data)) k := by
  have hnodups : ∀ b ∈ sched.map
      (fun spans => processEntries [] (spans.flatMap (chunkEntriesList data))),
      (keysOf b).Nodup := by
    intro b hb
    obtain ⟨spans, _, rfl⟩ := List.mem_map.mp hb
    exact nodup_processEntries _ [] (by simp [keysOf])
  rw [mergeAll, lookup_foldl_mergeMaps _ hnodups [] k, List.foldl_map]
  have hfun : (fun (o : Option MeasurementRecord) (spans : List (Nat × Nat)) =>
        combineOpt o (lookupRec (processEntries [] (spans.flatMap (chunkEntriesList data))) k)) =
      (fun (o : Option MeasurementRecord) (spans : List (Nat × Nat)) =>
        combineOpt o (recordOf (spans.flatMap (chunkEntriesList data)) k)) := by
    funext o spans
    rw [lookup_processEntries_nil]
  rw [hfun]
  rw [← List.foldl_map (fun spans => spans.flatMap (chunkEntriesList data))
    (fun o es => combineOpt o (recordOf es k)) sched]
  rw [show lookupRec [] k = recordOf [] k from rfl]
  rw [foldl_combineOpt_flatten k _ [], List.nil_append, flatten_map_flatMap]

/-- C1: for every input buffer of valid records (every line parseable, up to
a trailing newline), every chunk size, and every worker schedule that claims
exactly the cursor's spans (in any distribution and order), all workers
succeed, sequential single-worker processing succeeds, and the final per-key
record after merging all workers' partial maps equals the sequential result
(integer overflow is out of scope: sums are modelled in `Int`). -/
theorem c1_parallel_refines_sequential (data : List Nat) (W : Nat)
    (sched : List (List (Nat × Nat))) (hW : 0 < W)
    (hok : okPiecesB (splitNL data) = true)
    (hsched : sched.flatten.Perm (rawSpans W data.length)) :
    ∃ ms Ms, workerMapsM data sched = some ms ∧ seqMap data = some Ms ∧
      ∀ k, lookupRec (mergeAll ms) k = lookupRec Ms k := by
  have hchunks : ∀ sp ∈ rawSpans W data.length,
      chunkEntries data sp.1 sp.2 = some (chunkEntriesList data sp) := by
    intro sp hsp
    by_cases hne : data = []
    · subst hne
      simp [rawSpans, rawSpansAux] at hsp
    · obtain ⟨s, e⟩ := sp
      have hokc := okPieces_chunk data W hW hne hok (s, e) hsp
      exact chunkEntries_of_ok data s e hokc
  have hsched_chunks : ∀ spans ∈ sched, ∀ sp ∈ spans,
      chunkEntries data sp.1 sp.2 = some (chunkEntriesList data sp) := by
    intro spans hspans sp hsp
    exact hchunks sp (hsched.mem_iff.mp (List.mem_flatten.mpr ⟨spans, hspans, hsp⟩))
  refine ⟨_, processEntries [] ((splitNL data).filterMap parsePiece),
    workerMapsM_eq data sched hsched_chunks, ?_, ?_⟩
  · rw [seqMap, seq_parse_of_ok data hok]
    rfl
  · intro k
    rw [lookup_merged_eq data sched k, lookup_processEntries_nil]
    rw [recordOf_perm (perm_flatMap (chunkEntriesList data) hsched) k]
    rw [flatMap_chunkEntriesList]
    by_cases hne : data = []
    · subst hne
      rfl
    · rw [← chunk_tiling data W hW hne]

/-- Witness for C1 on the buffer `A;1.0\nB;2.0`, chunk size 4, and a
two-worker schedule that claims the middle span first. -/
theorem c1_parallel_refines_sequential_witness :
    ∃ ms Ms,
      workerMapsM [65, 59, 49, 46, 48, 10, 66, 59, 50, 46, 48] [[(4, 8)], [(0, 4), (8, 11)]] =
        some ms ∧
      seqMap [65, 59, 49, 46, 48, 10, 66, 59, 50, 46, 48] = some Ms ∧
      ∀ k, lookupRec (mergeAll ms) k = lookupRec Ms k :=
  c1_parallel_refines_sequential [65, 59, 49, 46, 48, 10, 66, 59, 50, 46, 48] 4
    [[(4, 8)], [(0, 4), (8, 11)]] (by decide) (by decide) (by decide)

/-- C4: with any chunk size, the boundary-adjusted chunks of the cursor's
raw spans partition the buffer's lines exactly: the concatenation of every
chunk's line pieces is the line decomposition of the whole buffer (each
complete line owned by exactly one chunk, none split).  A chunk whose
adjusted start reaches its adjusted end contributes no entries, and a span
with raw start 0 keeps the first byte of the buffer as its line start. -/
theorem c4_chunk_boundaries :
    (∀ (data : List Nat) (W : Nat), 0 < W → data ≠ [] →
      splitNL data = ((rawSpans W data.length).map (chunkPieces data)).flatten) ∧
    (∀ (data : List Nat) (s e s' : Nat), startAdj data s e = some s' →
      nlAfter data e ≤ s' → chunkEntries data s e = some []) ∧
    (∀ (data : List Nat) (e : Nat), chunkSlice data 0 e = some (data.take (nlAfter data e))) := by
  refine ⟨chunk_tiling, ?_, chunkSlice_zero⟩
  intro data s e s' hsa hle
  have hcs : chunkSlice data s e = some ((data.take (nlAfter data e)).drop s') := by
    unfold chunkSlice
    rw [hsa]
    rfl
  have hq := nlAfter_le_length data e
  have hnil : (data.take (nlAfter data e)).drop s' = [] := by
    apply List.drop_eq_nil_of_le
    simp only [List.length_take]
    omega
  unfold chunkEntries
  rw [hcs, hnil]
  rfl

/-- Witness for C4 at the buffer `ab\ncd` with chunk size 2. -/
theorem c4_chunk_boundaries_witness :
    splitNL [97, 98, 10, 99, 100] =
      ((rawSpans 2 ([97, 98, 10, 99, 100] : List Nat).length).map
        (chunkPieces [97, 98, 10, 99, 100])).flatten :=
  c4_chunk_boundaries.1 [97, 98, 10, 99, 100] 2 (by decide) (by decide)

/-- C10: parsing of every well-formed span terminates with all its records:
after a record the cursor advances past the fractional digit and the line
terminator (one well-formed line followed by a newline parses to its entry
consed onto the parse of the remainder); a final line with no trailing
newline is still parsed and the loop then stops; an empty span parses to no
records; and on every buffer of well-formed lines the parser returns a
result. -/
theorem c10_parser_termination :
    (∀ (p rest : List Nat) (ent : Entry), parsePiece p = some ent →
      parseEntries (p ++ 10 :: rest) = (parseEntries rest).map (fun es => ent :: es)) ∧
    (∀ (p : List Nat) (ent : Entry), parsePiece p = some ent →
      parseEntries p = some [ent]) ∧
    parseEntries [] = some [] ∧
    (∀ data : List Nat, okPiecesB (splitNL data) = true →
      (parseEntries data).isSome = true) := by
  refine ⟨parse_step, parse_last, rfl, ?_⟩
  intro data hok
  rw [seq_parse_of_ok data hok]
  rfl

/-- Witness for C10: the line `A;1.0` followed by a newline and `B;2.0`. -/
theorem c10_parser_termination_witness :
    parseEntries ([65, 59, 49, 46, 48] ++ 10 :: [66, 59, 50, 46, 48]) =
      (parseEntries [66, 59, 50, 46, 48]).map (fun es => (([65], (10 : Int))) :: es) :=
  c10_parser_termination.1 [65, 59, 49, 46, 48] [66, 59, 50, 46, 48] ([65], 10) (by decide)

/-! ### Decoder facts for valid digit bytes -/

theorem wsub_digit (a : Nat) (h1 : 48 ≤ a) (h2 : a ≤ 57) : wsub a = (a : Int) - 48 := by
  unfold wsub
  have hmod : (a + 208) % 256 = a - 48 := by omega
  rw [hmod, Nat.cast_sub h1]
  norm_num

theorem parsePiece_encode (k ip : List Nat) (d : Nat) (v : Int)
    (hk : 59 ∉ k) (hip : 46 ∉ ip) (hv : decodeValue ip d = some v) :
    parsePiece (k ++ 59 :: (ip ++ [46, d])) = some (k, v) := by
  unfold parsePiece
  have h59 : findPos 59 (k ++ 59 :: (ip ++ [46, d])) = some k.length := findPos_mid 59 k _ hk
  rw [h59]
  simp only [Option.some_bind]
  have hdrop : (k ++ 59 :: (ip ++ [46, d])).drop (k.length + 1) = ip ++ [46, d] := by
    rw [show k ++ 59 :: (ip ++ [46, d]) = (k ++ [59]) ++ (ip ++ [46, d]) from by simp,
      show k.length + 1 = (k ++ [59]).length + 0 from by simp, drop_append_add]
    rfl
  rw [hdrop]
  have h46 : findPos 46 (ip ++ [46, d]) = some ip.length := by
    rw [show (ip ++ [46, d] : List Nat) = ip ++ 46 :: [d] from rfl]
    exact findPos_mid 46 ip [d] hip
  rw [h46]
  simp only [Option.some_bind]
  have hlen : (ip ++ [46, d]).length = ip.length + 2 := by simp
  rw [if_pos hlen]
  have hget : (ip ++ [46, d])[ip.length + 1]? = some d := by
    rw [getq_append_add ip [46, d] 1]
    rfl
  rw [hget]
  simp only [Option.some_bind]
  have htake : (ip ++ [46, d]).take ip.length = ip := by
    rw [take_append_le ip _ ip.length (Nat.le_refl _), List.take_length]
  rw [htake, hv]
  simp only [Option.map_some']
  have htk : (k ++ 59 :: (ip ++ [46, d])).take k.length = k := by
    rw [take_append_le k _ k.length (Nat.le_refl _), List.take_length]
  rw [htk]

theorem decode_len1 (a d : Nat) (ha1 : 48 ≤ a) (ha2 : a ≤ 57) (hd1 : 48 ≤ d) (hd2 : d ≤ 57) :
    decodeValue [a] d = some (((a : Int) - 48) * 10 + ((d : Int) - 48)) := by
  show some (wsub a * 10 + wsub d) = _
  rw [wsub_digit a ha1 ha2, wsub_digit d hd1 hd2]

theorem decode_len2_pos (a b d : Nat) (ha1 : 48 ≤ a) (ha2 : a ≤ 57) (hb1 : 48 ≤ b) (hb2 : b ≤ 57)
    (hd1 : 48 ≤ d) (hd2 : d ≤ 57) :
    decodeValue [a, b] d =
      some (((a : Int) - 48) * 100 + ((b : Int) - 48) * 10 + ((d : Int) - 48)) := by
  show some (if a = 45 then -(wsub b) * 10 - wsub d else wsub a * 100 + wsub b * 10 + wsub d) = _
  rw [if_neg (by omega), wsub_digit a ha1 ha2, wsub_digit b hb1 hb2, wsub_digit d hd1 hd2]

theorem decode_len2_neg (b d : Nat) (hb1 : 48 ≤ b) (hb2 : b ≤ 57) (hd1 : 48 ≤ d) (hd2 : d ≤ 57) :
    decodeValue [45, b] d = some (-(((b : Int) - 48) * 10 + ((d : Int) - 48))) := by
  show some (if 45 = 45 then -(wsub b) * 10 - wsub d else wsub 45 * 100 + wsub b * 10 + wsub d) = _
  rw [if_pos rfl, wsub_digit b hb1 hb2, wsub_digit d hd1 hd2]
  exact congrArg some (by ring)

theorem decode_len3 (b0 b c d : Nat) (hb1 : 48 ≤ b) (hb2 : b ≤ 57) (hc1 : 48 ≤ c) (hc2 : c ≤ 57)
    (hd1 : 48 ≤ d) (hd2 : d ≤ 57) :
    decodeValue [b0, b, c] d =
      some (-(((b : Int) - 48) * 100 + ((c : Int) - 48) * 10 + ((d : Int) - 48))) := by
  show some (-(wsub b * 100 + wsub c * 10 + wsub d)) = _
  rw [wsub_digit b hb1 hb2, wsub_digit c hc1 hc2, wsub_digit d hd1 hd2]

/-- C2: on every valid line the parser takes the bytes before the first `;`
as the key and decodes the value by the length-of-integer-part rules
(length 1: d0*10+frac; length 2 without minus: d0*100+d1*10+frac; length 2
with minus: -(d1*10+frac)); in particular `X;12.3` parses to key `X` and
value 123, `X;-4.5` to -45, and `X;0.0` to 0. -/
theorem c2_parser_valid_lines :
    (∀ (k : List Nat) (a d : Nat), 59 ∉ k → 48 ≤ a → a ≤ 57 → 48 ≤ d → d ≤ 57 →
      parseEntries (k ++ 59 :: [a, 46, d]) =
        some [(k, ((a : Int) - 48) * 10 + ((d : Int) - 48))]) ∧
    (∀ (k : List Nat) (a b d : Nat), 59 ∉ k → 48 ≤ a → a ≤ 57 → 48 ≤ b → b ≤ 57 →
      48 ≤ d → d ≤ 57 →
      parseEntries (k ++ 59 :: [a, b, 46, d]) =
        some [(k, ((a : Int) - 48) * 100 + ((b : Int) - 48) * 10 + ((d : Int) - 48))]) ∧
    (∀ (k : List Nat) (b d : Nat), 59 ∉ k → 48 ≤ b → b ≤ 57 → 48 ≤ d → d ≤ 57 →
      parseEntries (k ++ 59 :: [45, b, 46, d]) =
        some [(k, -(((b : Int) - 48) * 10 + ((d : Int) - 48)))]) ∧
    parseEntries [88, 59, 49, 50, 46, 51] = some [([88], 123)] ∧
    parseEntries [88, 59, 45, 52, 46, 53] = some [([88], -45)] ∧
    parseEntries [88, 59, 48, 46, 48] = some [([88], 0)] := by
  refine ⟨?_, ?_, ?_, by decide, by decide, by decide⟩
  · intro k a d hk ha1 ha2 hd1 hd2
    exact parse_last _ _ (parsePiece_encode k [a] d _ hk (by simp; omega)
      (decode_len1 a d ha1 ha2 hd1 hd2))
  · intro k a b d hk ha1 ha2 hb1 hb2 hd1 hd2
    exact parse_last _ _ (parsePiece_encode k [a, b] d _ hk (by simp; omega)
      (decode_len2_pos a b d ha1 ha2 hb1 hb2 hd1 hd2))
  · intro k b d hk hb1 hb2 hd1 hd2
    exact parse_last _ _ (parsePiece_encode k [45, b] d _ hk (by simp; omega)
      (decode_len2_neg b d hb1 hb2 hd1 hd2))

/-- Witness for C2: the general two-digit rule applied to `X;12.3`. -/
theorem c2_parser_valid_lines_witness :
    parseEntries ([88] ++ 59 :: [49, 50, 46, 51]) =
      some [([88], ((49 : Int) - 48) * 100 + ((50 : Int) - 48) * 10 + ((51 : Int) - 48))] :=
  c2_parser_valid_lines.2.1 [88] 49 50 51 (by decide) (by decide) (by decide) (by decide)
    (by decide) (by decide) (by decide)

/-- C5: every line whose integer part is 3 bytes long decodes to the
negated value built from its second and third bytes and the fractional
digit, whatever the first byte is (minus sign or digit alike); hence values
at or above 100.0 cannot be represented positively. -/
theorem c5_three_digit_negative :
    ∀ (k : List Nat) (b0 b c d : Nat), 59 ∉ k → b0 ≠ 46 →
      48 ≤ b → b ≤ 57 → 48 ≤ c → c ≤ 57 → 48 ≤ d → d ≤ 57 →
      parseEntries (k ++ 59 :: [b0, b, c, 46, d]) =
        some [(k, -(((b : Int) - 48) * 100 + ((c : Int) - 48) * 10 + ((d : Int) - 48)))] := by
  intro k b0 b c d hk h0 hb1 hb2 hc1 hc2 hd1 hd2
  exact parse_last _ _ (parsePiece_encode k [b0, b, c] d _ hk
    (by simp [Ne.symm h0]; omega)
    (decode_len3 b0 b c d hb1 hb2 hc1 hc2 hd1 hd2))

/-- Witness for C5: `X;123.4` parses to value -234, the 3-byte branch
negates even an unsigned integer part. -/
theorem c5_three_digit_negative_witness :
    parseEntries ([88] ++ 59 :: [49, 50, 51, 46, 52]) =
      some [([88], -(((50 : Int) - 48) * 100 + ((51 : Int) - 48) * 10 + ((52 : Int) - 48)))] :=
  c5_three_digit_negative [88] 49 50 51 52 (by decide) (by decide) (by decide) (by decide)
    (by decide) (by decide) (by decide) (by decide)

/-! ### Rounding facts -/

theorem nat_round_half (a c : Nat) (hc : 1 ≤ c) :
    (a + c / 2) / c = (2 * a + c) / (2 * c) := by
  have hmod := Nat.div_add_mod a c
  have hr : a % c < c := Nat.mod_lt a (by omega)
  have hL : (a + c / 2) / c = a / c + (a % c + c / 2) / c := by
    conv_lhs => rw [← hmod]
    rw [Nat.add_assoc, Nat.mul_add_div (by omega)]
  have hR : (2 * a + c) / (2 * c) = a / c + (2 * (a % c) + c) / (2 * c) := by
    conv_lhs => rw [← hmod]
    have he : 2 * (c * (a / c) + a % c) + c = 2 * c * (a / c) + (2 * (a % c) + c) := by ring
    rw [he, Nat.mul_add_div (by omega)]
  rw [hL, hR]
  congr 1
  by_cases h : c ≤ a % c + c / 2
  · have h1 : (a % c + c / 2) / c = 1 := Nat.div_eq_of_lt_le (by omega) (by omega)
    have h2 : (2 * (a % c) + c) / (2 * c) = 1 := Nat.div_eq_of_lt_le (by omega) (by omega)
    rw [h1, h2]
  · have h1 : (a % c + c / 2) / c = 0 := Nat.div_eq_of_lt (by omega)
    have h2 : (2 * (a % c) + c) / (2 * c) = 0 := Nat.div_eq_of_lt (by omega)
    rw [h1, h2]

theorem tdiv_cast (m n : Nat) : ((m : Int)).tdiv ((n : Int)) = ((m / n : Nat) : Int) := rfl

/-- C3: the reported mean is the round-half-away-from-zero of `sum / count`,
computed exactly in integer arithmetic by offsetting `sum` by `count / 2`
toward its own sign before truncating division; in particular `sum = 5,
count = 2` rounds to 3 and `sum = -5, count = 2` rounds to -3. -/
theorem c3_mean_round_half_away :
    (∀ (s : Int) (c : Nat), 1 ≤ c → meanOf s c = roundHalfAwaySpec s c) ∧
    meanOf 5 2 = 3 ∧ meanOf (-5) 2 = -3 := by
  refine ⟨?_, by decide, by decide⟩
  intro s c hc
  unfold meanOf roundHalfAwaySpec
  by_cases hs : 0 ≤ s
  · rw [if_pos hs, if_pos hs]
    obtain ⟨a, rfl⟩ : ∃ a : Nat, s = (a : Int) := ⟨s.toNat, (Int.toNat_of_nonneg hs).symm⟩
    have hcast : ((a : Int)) + ((c / 2 : Nat) : Int) = ((a + c / 2 : Nat) : Int) := by
      push_cast
      ring
    rw [hcast, tdiv_cast, Int.toNat_natCast, nat_round_half a c hc]
  · rw [if_neg hs, if_neg hs]
    obtain ⟨a, ha⟩ : ∃ a : Nat, s = -(a : Int) :=
      ⟨(-s).toNat, by rw [Int.toNat_of_nonneg (by omega)]; ring⟩
    subst ha
    have hcast : (-(a : Int)) - ((c / 2 : Nat) : Int) = -((a + c / 2 : Nat) : Int) := by
      push_cast
      ring
    rw [hcast, Int.neg_tdiv, tdiv_cast, nat_round_half a c hc]
    have htn : (-(-(a : Int))).toNat = a := by
      rw [neg_neg, Int.toNat_natCast]
    rw [htn]

/-- Witness for C3 at `sum = 7, count = 4` (1.75 rounds to 2). -/
theorem c3_mean_round_half_away_witness : meanOf 7 4 = roundHalfAwaySpec 7 4 :=
  c3_mean_round_half_away.1 7 4 (by decide)

/-! ### Record invariant facts -/

theorem recordInv_init (v : Int) : RecordInv (initRecord v) [v] := by
  refine ⟨rfl, by simp [initRecord], by simp, ?_⟩
  intro x hx
  rcases List.mem_singleton.mp hx with rfl
  exact ⟨le_refl _, le_refl _⟩

theorem recordInv_addValue (r : MeasurementRecord) (vs : List Int) (v : Int)
    (h : RecordInv r vs) : RecordInv (addValue r v) (vs ++ [v]) := by
  obtain ⟨hc, hs, hne, hb⟩ := h
  refine ⟨by simp [addValue, hc], by simp [addValue, hs], by simp, ?_⟩
  intro x hx
  rcases List.mem_append.mp hx with hx | hx
  · obtain ⟨h1, h2⟩ := hb x hx
    exact ⟨le_trans (min_le_left _ _) h1, le_trans h2 (le_max_left _ _)⟩
  · rcases List.mem_singleton.mp hx with rfl
    exact ⟨min_le_right _ _, le_max_right _ _⟩

theorem recordInv_combine (r1 : MeasurementRecord) (vs1 : List Int)
    (r2 : MeasurementRecord) (vs2 : List Int)
    (h1 : RecordInv r1 vs1) (h2 : RecordInv r2 vs2) :
    RecordInv (combine r1 r2) (vs1 ++ vs2) := by
  obtain ⟨hc1, hs1, hne1, hb1⟩ := h1
  obtain ⟨hc2, hs2, hne2, hb2⟩ := h2
  refine ⟨by simp [combine, hc1, hc2], by simp [combine, hs1, hs2], by simp [hne1], ?_⟩
  intro x hx
  rcases List.mem_append.mp hx with hx | hx
  · obtain ⟨ha, hb⟩ := hb1 x hx
    exact ⟨le_trans (min_le_left _ _) ha, le_trans hb (le_max_left _ _)⟩
  · obtain ⟨ha, hb⟩ := hb2 x hx
    exact ⟨le_trans (min_le_right _ _) ha, le_trans hb (le_max_right _ _)⟩

theorem valuesFor_cons (e : Entry) (es : List Entry) (k : List Nat) :
    valuesFor (e :: es) k =
      if e.1 = k then e.2 :: valuesFor es k else valuesFor es k := by
  by_cases h : e.1 = k <;> simp [valuesFor, List.filter_cons, h]

theorem recordOf_inv_gen (k : List Nat) : ∀ (es : List Entry) (o : Option MeasurementRecord)
    (vs0 : List Int), (o = none → vs0 = []) → (∀ r0, o = some r0 → RecordInv r0 vs0) →
    ∀ r, es.foldl (stepVal k) o = some r → RecordInv r (vs0 ++ valuesFor es k) := by
  intro es
  induction es with
  | nil =>
    intro o vs0 _ h2 r hr
    simp only [List.foldl_nil] at hr
    have := h2 r hr
    simpa [valuesFor]
  | cons e es ih =>
    intro o vs0 h1 h2 r hr
    rw [valuesFor_cons]
    by_cases he : e.1 = k
    · rw [List.foldl_cons, stepVal_eq_pos _ he] at hr
      rw [if_pos he]
      have h1' : some (applyVal o e.2) = none → vs0 ++ [e.2] = [] := by
        intro h0
        cases h0
      have h2' : ∀ r0, some (applyVal o e.2) = some r0 → RecordInv r0 (vs0 ++ [e.2]) := by
        intro r0 hr0
        have hr0' : applyVal o e.2 = r0 := by injection hr0
        subst hr0'
        cases ho : o with
        | none =>
          have hvs : vs0 = [] := h1 ho
          subst hvs
          simpa [applyVal] using recordInv_init e.2
        | some r1 =>
          have := h2 r1 ho
          simpa [applyVal] using recordInv_addValue r1 vs0 e.2 this
      have := ih (some (applyVal o e.2)) (vs0 ++ [e.2]) h1' h2' r hr
      rwa [List.append_assoc, List.singleton_append] at this
    · rw [List.foldl_cons, stepVal_eq_neg _ he] at hr
      rw [if_neg he]
      exact ih o vs0 h1 h2 r hr

/-- C7: every record in a map built from parsed entries satisfies the
multiset invariant for exactly the values contributed to its key: count is
the number of contributing observations, sum their exact integer total,
count at least 1, and every contributing value lies between min and max;
the first-occurrence record, the per-line update, and the merge combination
all preserve this invariant. -/
theorem c7_record_invariant :
    (∀ v : Int, RecordInv (initRecord v) [v]) ∧
    (∀ (r : MeasurementRecord) (vs : List Int) (v : Int),
      RecordInv r vs → RecordInv (addValue r v) (vs ++ [v])) ∧
    (∀ (r1 : MeasurementRecord) (vs1 : List Int) (r2 : MeasurementRecord) (vs2 : List Int),
      RecordInv r1 vs1 → RecordInv r2 vs2 → RecordInv (combine r1 r2) (vs1 ++ vs2)) ∧
    (∀ (es : List Entry) (k : List Nat) (r : MeasurementRecord),
      lookupRec (processEntries [] es) k = some r → RecordInv r (valuesFor es k)) := by
  refine ⟨recordInv_init, recordInv_addValue, recordInv_combine, ?_⟩
  intro es k r h
  rw [lookup_processEntries_nil] at h
  have := recordOf_inv_gen k es none [] (fun _ => rfl) (fun r0 h0 => by cases h0) r h
  simpa using this

/-- Witness for C7: the record built from `A -> 10, B -> 7, A -> 30`
satisfies the invariant for key `A`. -/
theorem c7_record_invariant_witness :
    RecordInv
      (match lookupRec (processEntries [] [([65], 10), ([66], 7), ([65], 30)]) [65] with
        | some r => r
        | none => initRecord 0)
      (valuesFor [([65], 10), ([66], 7), ([65], 30)] [65]) := by
  have h := c7_record_invariant.2.2.2 [([65], 10), ([66], 7), ([65], 30)] [65]
    { count := 2, sum := 40, min := 10, max := 30 } (by decide)
  simpa using h

/-! ### Range-safety facts -/

theorem wsub_digit_bounds (a : Nat) (h1 : 48 ≤ a) (h2 : a ≤ 57) :
    0 ≤ wsub a ∧ wsub a ≤ 9 := by
  rw [wsub_digit a h1 h2]
  omega

theorem decode_range (ip : List Nat) (d : Nat) (v : Int) (hip : ValidIntPart ip)
    (hd1 : 48 ≤ d) (hd2 : d ≤ 57) (hv : decodeValue ip d = some v) :
    -999 ≤ v ∧ v ≤ 999 := by
  obtain ⟨d0, d1⟩ := wsub_digit_bounds d hd1 hd2
  rcases hip with ⟨a, rfl, ha1, ha2⟩ | ⟨a, b, rfl, ha, hb1, hb2⟩ | ⟨a, b, c, rfl, hb1, hb2, hc1, hc2⟩
  · obtain ⟨a0, a1⟩ := wsub_digit_bounds a ha1 ha2
    have : v = wsub a * 10 + wsub d := by
      have h0 : decodeValue [a] d = some (wsub a * 10 + wsub d) := rfl
      rw [h0] at hv
      injection hv with hv
      exact hv.symm
    omega
  · obtain ⟨b0, b1⟩ := wsub_digit_bounds b hb1 hb2
    rcases ha with rfl | ⟨ha1, ha2⟩
    · have : v = -(wsub b) * 10 - wsub d := by
        have h0 : decodeValue [45, b] d =
            some (if (45 : Nat) = 45 then -(wsub b) * 10 - wsub d
              else wsub 45 * 100 + wsub b * 10 + wsub d) := rfl
        rw [h0, if_pos rfl] at hv
        injection hv with hv
        exact hv.symm
      omega
    · obtain ⟨a0, a1⟩ := wsub_digit_bounds a ha1 ha2
      have : v = wsub a * 100 + wsub b * 10 + wsub d := by
        have h0 : decodeValue [a, b] d =
            some (if a = 45 then -(wsub b) * 10 - wsub d
              else wsub a * 100 + wsub b * 10 + wsub d) := rfl
        rw [h0, if_neg (by omega)] at hv
        injection hv with hv
        exact hv.symm
      omega
  · obtain ⟨b0, b1⟩ := wsub_digit_bounds b hb1 hb2
    obtain ⟨c0, c1⟩ := wsub_digit_bounds c hc1 hc2
    have : v = -(wsub b * 100 + wsub c * 10 + wsub d) := by
      have h0 : decodeValue [a, b, c] d = some (-(wsub b * 100 + wsub c * 10 + wsub d)) := rfl
      rw [h0] at hv
      injection hv with hv
      exact hv.symm
    omega

theorem bdd_init (lo hi v : Int) (h1 : lo ≤ v) (h2 : v ≤ hi) : BddRec lo hi (initRecord v) := by
  unfold BddRec initRecord
  refine ⟨h1, le_refl _, h2, le_refl _, by simpa using h1, by simpa using h2⟩

theorem bdd_addValue (lo hi : Int) (r : MeasurementRecord) (v : Int)
    (h : BddRec lo hi r) (h1 : lo ≤ v) (h2 : v ≤ hi) : BddRec lo hi (addValue r v) := by
  obtain ⟨a1, a2, a3, a4, a5, a6⟩ := h
  unfold BddRec addValue
  simp only
  have e1 : lo * ((r.count : Int) + 1) = lo * r.count + lo := by ring
  have e2 : hi * ((r.count : Int) + 1) = hi * r.count + hi := by ring
  refine ⟨le_min a1 h1, ?_, max_le a3 h2, by omega, ?_, ?_⟩
  · exact le_trans (min_le_left _ _) (le_trans a2 (le_max_left _ _))
  · push_cast
    rw [e1]
    omega
  · push_cast
    rw [e2]
    omega

theorem recordOf_bdd (lo hi : Int) (k : List Nat) : ∀ (es : List Entry)
    (o : Option MeasurementRecord), (∀ e ∈ es, lo ≤ e.2 ∧ e.2 ≤ hi) →
    (∀ r0, o = some r0 → BddRec lo hi r0) →
    ∀ r, es.foldl (stepVal k) o = some r → BddRec lo hi r := by
  intro es
  induction es with
  | nil =>
    intro o _ h2 r hr
    simp only [List.foldl_nil] at hr
    exact h2 r hr
  | cons e es ih =>
    intro o hes h2 r hr
    by_cases he : e.1 = k
    · rw [List.foldl_cons, stepVal_eq_pos _ he] at hr
      have hev := hes e (List.mem_cons_self _ _)
      refine ih (some (applyVal o e.2)) (fun x hx => hes x (List.mem_cons_of_mem _ hx)) ?_ r hr
      intro r0 hr0
      have hr0' : applyVal o e.2 = r0 := by injection hr0
      subst hr0'
      cases ho : o with
      | none => exact bdd_init lo hi e.2 hev.1 hev.2
      | some r1 => exact bdd_addValue lo hi r1 e.2 (h2 r1 ho) hev.1 hev.2
    · rw [List.foldl_cons, stepVal_eq_neg _ he] at hr
      exact ih o (fun x hx => hes x (List.mem_cons_of_mem _ hx)) h2 r hr

theorem mean_in_range (s : Int) (c : Nat) (hc : 1 ≤ c)
    (h1 : -999 * (c : Int) ≤ s) (h2 : s ≤ 999 * (c : Int)) :
    -999 ≤ meanOf s c ∧ meanOf s c ≤ 999 := by
  have hq : ∀ a : Nat, a ≤ 999 * c → (a + c / 2) / c ≤ 999 := by
    intro a ha
    have hlt : a + c / 2 < 1000 * c := by omega
    have := (Nat.div_lt_iff_lt_mul (by omega : 0 < c)).mpr hlt
    omega
  unfold meanOf
  by_cases hs : 0 ≤ s
  · rw [if_pos hs]
    obtain ⟨a, rfl⟩ : ∃ a : Nat, s = (a : Int) := ⟨s.toNat, (Int.toNat_of_nonneg hs).symm⟩
    have hcast : ((a : Int)) + ((c / 2 : Nat) : Int) = ((a + c / 2 : Nat) : Int) := by
      push_cast
      ring
    rw [hcast, tdiv_cast]
    have ha : a ≤ 999 * c := by
      have : (a : Int) ≤ 999 * (c : Int) := h2
      omega
    have hqi : (((a + c / 2) / c : Nat) : Int) ≤ 999 := by exact_mod_cast hq a ha
    have hnn := Int.natCast_nonneg ((a + c / 2) / c)
    exact ⟨by omega, hqi⟩
  · rw [if_neg hs]
    obtain ⟨a, ha⟩ : ∃ a : Nat, s = -(a : Int) :=
      ⟨(-s).toNat, by rw [Int.toNat_of_nonneg (by omega)]; ring⟩
    subst ha
    have hcast : (-(a : Int)) - ((c / 2 : Nat) : Int) = -((a + c / 2 : Nat) : Int) := by
      push_cast
      ring
    rw [hcast, Int.neg_tdiv, tdiv_cast]
    have ha : a ≤ 999 * c := by
      have : -999 * (c : Int) ≤ -(a : Int) := h1
      omega
    have hqi : (((a + c / 2) / c : Nat) : Int) ≤ 999 := by exact_mod_cast hq a ha
    have hnn := Int.natCast_nonneg ((a + c / 2) / c)
    exact ⟨by omega, by omega⟩

theorem format_fixed_total (n : Int) (h1 : -999 ≤ n) (h2 : n ≤ 999) :
    (format_fixed n).isSome = true := by
  unfold format_fixed
  split_ifs with a b c d
  · rfl
  · rfl
  · rfl
  · rfl
  · exfalso
    omega

/-- C8: every value decoded from a valid record lies in -999..=999; every
record built from in-range entries has min, max in that range and sum
bounded by count times the range; the rounded mean of such a record stays
in range; and the fixed-point formatter succeeds (never reaches its
out-of-range `unreachable!` arm) on every number in that range. -/
theorem c8_range_safety :
    (∀ (ip : List Nat) (d : Nat) (v : Int), ValidIntPart ip → 48 ≤ d → d ≤ 57 →
      decodeValue ip d = some v → -999 ≤ v ∧ v ≤ 999) ∧
    (∀ (es : List Entry) (k : List Nat) (r : MeasurementRecord),
      (∀ e ∈ es, -999 ≤ e.2 ∧ e.2 ≤ 999) →
      lookupRec (processEntries [] es) k = some r → BddRec (-999) 999 r) ∧
    (∀ (s : Int) (c : Nat), 1 ≤ c → -999 * (c : Int) ≤ s → s ≤ 999 * (c : Int) →
      -999 ≤ meanOf s c ∧ meanOf s c ≤ 999) ∧
    (∀ n : Int, -999 ≤ n → n ≤ 999 → (format_fixed n).isSome = true) := by
  refine ⟨decode_range, ?_, mean_in_range, format_fixed_total⟩
  intro es k r hes h
  rw [lookup_processEntries_nil] at h
  exact recordOf_bdd (-999) 999 k es none hes (fun r0 h0 => by cases h0) r h

/-- Witness for C8: the decoded value of `-4.5` is in range. -/
theorem c8_range_safety_witness : -999 ≤ (-45 : Int) ∧ (-45 : Int) ≤ 999 :=
  c8_range_safety.1 [45, 52] 53 (-45) (Or.inr (Or.inl ⟨45, 52, rfl, Or.inl rfl, by omega⟩))
    (by decide) (by decide) (by decide)

/-! ### Arena accounting facts -/

theorem alloc_allocCount (a : BumpAlloc) (n : Nat) :
    (a.alloc n).allocCount = a.allocCount + 1 := by
  unfold BumpAlloc.alloc
  split_ifs <;> rfl

theorem length_updateMap (m : AggMap) (k : List Nat) (v : Int) :
    (updateMap m k v).length =
      if (lookupRec m k).isSome then m.length else m.length + 1 := by
  induction m with
  | nil => simp [updateMap, lookupRec]
  | cons kr m ih =>
    obtain ⟨k2, r⟩ := kr
    by_cases h : k2 = k
    · subst h
      simp [updateMap, lookupRec]
    · simp only [updateMap, List.length_cons, lookupRec, if_neg h, ih]
      by_cases hp : (lookupRec m k).isSome <;> simp [hp]

theorem processEntriesA_fst : ∀ (es : List Entry) (m : AggMap) (a : BumpAlloc),
    (processEntriesA (m, a) es).1 = processEntries m es := by
  intro es
  induction es with
  | nil => intro m a; rfl
  | cons e es ih =>
    intro m a
    show (processEntriesA (handleEntryA (m, a) e) es).1 = _
    unfold handleEntryA
    dsimp only
    by_cases h : (lookupRec m e.1).isSome = true
    · rw [if_pos h]
      exact ih _ _
    · rw [if_neg h]
      exact ih _ _

theorem allocCount_processEntriesA : ∀ (es : List Entry) (m : AggMap) (a : BumpAlloc),
    (processEntriesA (m, a) es).2.allocCount + m.length =
      a.allocCount + (processEntries m es).length := by
  intro es
  induction es with
  | nil => intro m a; rfl
  | cons e es ih =>
    intro m a
    show (processEntriesA (handleEntryA (m, a) e) es).2.allocCount + m.length = _
    unfold handleEntryA
    dsimp only
    have hPE : processEntries m (e :: es) = processEntries (updateMap m e.1 e.2) es := rfl
    rw [hPE]
    by_cases h : (lookupRec m e.1).isSome = true
    · rw [if_pos h]
      have hih := ih (updateMap m e.1 e.2) a
      have hlen : (updateMap m e.1 e.2).length = m.length := by
        rw [length_updateMap, if_pos h]
      omega
    · rw [if_neg h]
      have hih := ih (updateMap m e.1 e.2) (a.alloc e.1.length)
      have hlen : (updateMap m e.1 e.2).length = m.length + 1 := by
        rw [length_updateMap, if_neg h]
      have hac := alloc_allocCount a e.1.length
      omega

theorem mem_keys_processEntries : ∀ (es : List Entry) (m : AggMap) (k : List Nat),
    k ∈ keysOf (processEntries m es) ↔ k ∈ keysOf m ∨ k ∈ es.map Prod.fst := by
  intro es
  induction es with
  | nil => intro m k; simp [processEntries]
  | cons e es ih =>
    intro m k
    have hPE : processEntries m (e :: es) = processEntries (updateMap m e.1 e.2) es := rfl
    rw [hPE, ih, mem_keys_updateMap]
    simp only [List.map_cons, List.mem_cons]
    tauto

theorem processEntriesA_append (st : AggMap × BumpAlloc) (es1 es2 : List Entry) :
    processEntriesA st (es1 ++ es2) = processEntriesA (processEntriesA st es1) es2 := by
  simp [processEntriesA, List.foldl_append]

/-- C9: the repeat-key path of `handle_entry` mutates the record in place
and leaves the arena state exactly unchanged (no allocation); over a whole
run starting from an empty map, the number of `alloc_slice` calls is
exactly the number of distinct keys (the final map has one entry per
distinct key of the input, allocated at first occurrence), and appending a
repeat-key entry to a run never changes the arena state. -/
theorem c9_arena_frame :
    (∀ (m : AggMap) (a : BumpAlloc) (k : List Nat) (v : Int),
      (lookupRec m k).isSome = true → handleEntryA (m, a) (k, v) = (updateMap m k v, a)) ∧
    (∀ (es : List Entry) (a0 : BumpAlloc),
      (processEntriesA ([], a0) es).1 = processEntries [] es ∧
      (processEntriesA ([], a0) es).2.allocCount =
        a0.allocCount + (processEntries [] es).length) ∧
    (∀ es : List Entry, (keysOf (processEntries [] es)).Nodup ∧
      ∀ k, k ∈ keysOf (processEntries [] es) ↔ k ∈ es.map Prod.fst) ∧
    (∀ (es : List Entry) (k : List Nat) (v : Int) (a0 : BumpAlloc),
      (lookupRec (processEntriesA ([], a0) es).1 k).isSome = true →
      (processEntriesA ([], a0) (es ++ [(k, v)])).2 = (processEntriesA ([], a0) es).2) := by
  refine ⟨?_, ?_, ?_, ?_⟩
  · intro m a k v h
    unfold handleEntryA
    dsimp only
    rw [if_pos h]
  · intro es a0
    refine ⟨processEntriesA_fst es [] a0, ?_⟩
    have := allocCount_processEntriesA es [] a0
    simpa using this
  · intro es
    refine ⟨nodup_processEntries es [] (by simp [keysOf]), ?_⟩
    intro k
    rw [mem_keys_processEntries es [] k]
    simp [keysOf]
  · intro es k v a0 h
    rw [processEntriesA_append]
    show (handleEntryA (processEntriesA ([], a0) es) (k, v)).2 = _
    unfold handleEntryA
    dsimp only
    rw [if_pos h]

/-- Witness for C9: updating an existing key leaves a concrete arena state
untouched. -/
theorem c9_arena_frame_witness :
    handleEntryA ([([65], initRecord 5)], { len := 1, chunks := 0, allocCount := 1 }) ([65], 7) =
      (updateMap [([65], initRecord 5)] [65] 7,
        { len := 1, chunks := 0, allocCount := 1 }) :=
  c9_arena_frame.1 [([65], initRecord 5)] { len := 1, chunks := 0, allocCount := 1 } [65] 7
    (by decide)

/-! ### End-to-end pipeline facts -/

theorem workerMapsM_append (data : List Nat) : ∀ (a b : List (List (Nat × Nat))),
    workerMapsM data (a ++ b) =
      (workerMapsM data a).bind fun ms1 => (workerMapsM data b).map fun ms2 => ms1 ++ ms2 := by
  intro a
  induction a with
  | nil =>
    intro b
    cases h : workerMapsM data b <;> simp [workerMapsM, h]
  | cons spans a ih =>
    intro b
    show (work data spans).bind _ = ((work data spans).bind _).bind _
    cases hw : work data spans with
    | none => rfl
    | some m =>
      simp only [Option.some_bind]
      rw [List.append_eq, ih b]
      cases ha : workerMapsM data a with
      | none => rfl
      | some ms1 =>
        simp only [Option.some_bind, Option.map_some', Option.bind_some]
        cases hb : workerMapsM data b <;> simp

theorem workerMapsM_nils (data : List Nat) : ∀ a : List (List (Nat × Nat)),
    (∀ l ∈ a, l = []) → workerMapsM data a = some (a.map (fun _ => ([] : AggMap))) := by
  intro a
  induction a with
  | nil => intro _; rfl
  | cons l a ih =>
    intro h
    have h1 : work data l = some [] := by
      rw [h l (List.mem_cons_self _ _)]
      rfl
    show (work data l).bind (fun m => (workerMapsM data a).map fun ms => m :: ms) = _
    rw [h1, ih (fun x hx => h x (List.mem_cons_of_mem _ hx))]
    simp

theorem foldl_mergeMaps_nils : ∀ (ms : List AggMap) (acc : AggMap), (∀ l ∈ ms, l = []) →
    ms.foldl mergeMaps acc = acc := by
  intro ms
  induction ms with
  | nil => intro acc _; rfl
  | cons x ms ih =>
    intro acc h
    have hx := h x (List.mem_cons_self _ _)
    subst hx
    show ms.foldl mergeMaps (mergeMaps acc []) = acc
    exact ih acc (fun y hy => h y (List.mem_cons_of_mem _ hy))

theorem flatten_singleton {α : Type} : ∀ (ss : List (List α)) (x : α), ss.flatten = [x] →
    ∃ a b, ss = a ++ [x] :: b ∧ (∀ l ∈ a, l = []) ∧ (∀ l ∈ b, l = []) := by
  intro ss
  induction ss with
  | nil => intro x h; simp at h
  | cons s ss ih =>
    intro x h
    rw [List.flatten_cons] at h
    cases s with
    | nil =>
      rw [List.nil_append] at h
      obtain ⟨a, b, h1, h2, h3⟩ := ih x h
      refine ⟨[] :: a, b, by rw [h1]; rfl, ?_, h3⟩
      intro l hl
      rcases List.mem_cons.mp hl with rfl | hl
      · rfl
      · exact h2 l hl
    | cons y s2 =>
      rw [List.cons_append] at h
      injection h with hy hrest
      obtain ⟨hs2, hfl⟩ := List.append_eq_nil.mp hrest
      subst hy
      subst hs2
      exact ⟨[], ss, by simp, by simp, flatten_eq_nil_all ss hfl⟩

/-- C6: for the input `Hamburg;12.0\nHamburg;8.0\nBerlin;5.5\n` and any
worker schedule of the program's 2 MiB cursor (hence any worker count),
the complete emitted report is exactly
`Berlin;5.5;5.5;5.5\nHamburg;8.0;10.0;12.0\n`: one line per distinct key,
sorted ascending by key bytes, `name;min;mean;max` with one decimal digit
each. -/
theorem c6_end_to_end (sched : List (List (Nat × Nat)))
    (hsched : sched.flatten.Perm (rawSpans WORK_CHUNK hamburgBuffer.length)) :
    runAll hamburgBuffer sched = some expectedReport := by
  have hr : rawSpans WORK_CHUNK hamburgBuffer.length = [(0, 36)] := by decide
  rw [hr] at hsched
  have hfl : sched.flatten = [(0, 36)] := List.perm_singleton.mp hsched
  obtain ⟨a, b, rfl, ha, hb⟩ := flatten_singleton sched (0, 36) hfl
  unfold runAll
  rw [workerMapsM_append, workerMapsM_nils hamburgBuffer a ha]
  have hcons : workerMapsM hamburgBuffer ([(0, 36)] :: b) =
      (work hamburgBuffer [(0, 36)]).bind fun m =>
        (workerMapsM hamburgBuffer b).map fun ms => m :: ms := rfl
  have hM0 : work hamburgBuffer [(0, 36)] = some mainChunkMap := by decide
  rw [hcons, hM0, workerMapsM_nils hamburgBuffer b hb]
  simp only [Option.some_bind, Option.map_some']
  have h1 : (a.map (fun _ => ([] : AggMap))).foldl mergeMaps [] = [] := by
    apply foldl_mergeMaps_nils
    intro l hl
    obtain ⟨x, _, h2⟩ := List.mem_map.mp hl
    exact h2.symm
  have h2 : mergeMaps [] mainChunkMap = mainChunkMap := by decide
  have h3 : (b.map (fun _ => ([] : AggMap))).foldl mergeMaps mainChunkMap = mainChunkMap := by
    apply foldl_mergeMaps_nils
    intro l hl
    obtain ⟨x, _, h4⟩ := List.mem_map.mp hl
    exact h4.symm
  rw [mergeAll, List.foldl_append, h1, List.foldl_cons, h2, h3]
  decide

/-- Witness for C6 at the one-worker schedule. -/
theorem c6_end_to_end_witness :
    runAll hamburgBuffer [[(0, 36)]] = some expectedReport :=
  c6_end_to_end [[(0, 36)]] (by decide)
